import Mathlib

/-
Verification of the page-selection parser and extraction-orchestrator error
handling of the PDF page extractor (src/App.tsx).

The parser `parsePageString` and the error classification in `handleExtract`
and `handleFileSelect` are embedded shallowly.  JavaScript strings are
modelled as `List Char` (combined into `String` at the boundary), JavaScript
numbers produced by `Number(...)` are modelled as `Option ℚ` : `none` stands
for any non-finite result (`NaN`, `Infinity`, `-Infinity`).  This collapse is
observationally correct for the parser : every non-finite value fails the
same bounds check as `NaN` does, with the identical error message, because
`max` is always finite.  IEEE-754 rounding of string-to-number conversion is
not modelled; values are exact rationals, which agrees with JavaScript on
every value whose decimal literal fits a double exactly (in particular, all
inputs appearing in the theorems below).
-/

attribute [local semireducible] Rat.add Rat.sub Rat.mul Rat.inv

deriving instance DecidableEq for Except

/-- Whitespace recognised by JavaScript `String.prototype.trim` and by the
`StringNumericLiteral` grammar of `Number(...)` (ASCII whitespace, NBSP and
BOM; further exotic Unicode space code points are not modelled). -/
def isWS (c : Char) : Bool :=
  c = ' ' || c = '\t' || c = '\n' || c = '\r' || c = '\x0b' || c = '\x0c'
    || c = '\xa0' || c = '\uFEFF'

/-- Drop leading whitespace. -/
def lstrip (l : List Char) : List Char := l.dropWhile isWS

/-- Drop trailing whitespace. -/
def rstrip (l : List Char) : List Char := (l.reverse.dropWhile isWS).reverse

/-- Model of `String.prototype.trim`. -/
def trimChars (l : List Char) : List Char := rstrip (lstrip l)

/-- Helper for `splitOnChar` : returns the first piece and the remaining
pieces. -/
def splitAux (c : Char) : List Char → List Char × List (List Char)
  | [] => ([], [])
  | a :: rest =>
    let r := splitAux c rest
    if a = c then ([], r.1 :: r.2) else (a :: r.1, r.2)

/-- Model of `String.prototype.split(sep)` for a one-character separator :
`"".split(',')` gives `[""]`, and separators at the ends produce empty
pieces, exactly as in JavaScript. -/
def splitOnChar (c : Char) (l : List Char) : List (List Char) :=
  (splitAux c l).1 :: (splitAux c l).2

/-- Numeric value of a decimal digit character. -/
def digitVal (c : Char) : ℕ := c.toNat - 48

/-- Value of a string of decimal digits (most significant first). -/
def digitsVal (ds : List Char) : ℕ := ds.foldl (fun a c => 10 * a + digitVal c) 0

/-- Numeric value of a hexadecimal digit character, if it is one. -/
def hexDigitVal (c : Char) : Option ℕ :=
  if c.isDigit then some (c.toNat - 48)
  else if 'a' ≤ c ∧ c ≤ 'f' then some (c.toNat - 87)
  else if 'A' ≤ c ∧ c ≤ 'F' then some (c.toNat - 55)
  else none

/-- Value of a `0x` / `0o` / `0b` integer literal body in the given radix;
`none` if empty or containing a digit outside the radix. -/
def parseRadix (radix : ℕ) (t : List Char) : Option ℚ :=
  if t = [] then none
  else
    (t.foldl
      (fun acc c =>
        match acc, hexDigitVal c with
        | some v, some d => if d < radix then some (radix * v + d) else none
        | _, _ => none)
      (some 0)).map (fun v => (v : ℚ))

/-- Exponent digits of a decimal literal : all characters must be decimal
digits and there must be at least one. -/
def expDigits (r : List Char) : Option ℕ :=
  if r ≠ [] ∧ r.all Char.isDigit then some (digitsVal r) else none

/-- Signed exponent part following the `e` of a decimal literal. -/
def parseExpPart : List Char → Option ℤ
  | '+' :: r => (expDigits r).map (fun n => (n : ℤ))
  | '-' :: r => (expDigits r).map (fun n => -(n : ℤ))
  | r => (expDigits r).map (fun n => (n : ℤ))

/-- Multiply by a (possibly negative) power of ten, exactly. -/
def timesPow10 (m : ℚ) (ex : ℤ) : ℚ :=
  if 0 ≤ ex then m * ((10 ^ ex.toNat : ℕ) : ℚ) else m * mkRat 1 (10 ^ (-ex).toNat)

/-- Mantissa of integer digits `ip` and fraction digits `fp`, followed by an
optional exponent part `r2` (which must be consumed entirely). -/
def parseTail (ip fp r2 : List Char) : Option ℚ :=
  let m : ℚ := (digitsVal ip : ℚ) + mkRat (digitsVal fp) (10 ^ fp.length)
  match r2 with
  | [] => some m
  | c :: r3 =>
    if c = 'e' ∨ c = 'E' then (parseExpPart r3).map (fun ex => timesPow10 m ex)
    else none

/-- Unsigned decimal string literal : `DecimalDigits [. DecimalDigits] [Exp]`
or `. DecimalDigits [Exp]`; the literal `Infinity` is non-finite and hence
modelled as `none` (see the header comment). -/
def parseDec (t : List Char) : Option ℚ :=
  if t = ['I', 'n', 'f', 'i', 'n', 'i', 't', 'y'] then none
  else
    let ip := t.takeWhile Char.isDigit
    let r1 := t.dropWhile Char.isDigit
    match r1 with
    | '.' :: r =>
      let fp := r.takeWhile Char.isDigit
      let r2 := r.dropWhile Char.isDigit
      if ip = [] ∧ fp = [] then none else parseTail ip fp r2
    | _ => if ip = [] then none else parseTail ip [] r1

/-- Trimmed, non-empty body of a `StringNumericLiteral` : an optionally
signed decimal literal or an unsigned `0x` / `0o` / `0b` literal. -/
def parseNum (t : List Char) : Option ℚ :=
  match t with
  | [] => none
  | d :: rest =>
    if d = '+' then parseDec rest
    else if d = '-' then (parseDec rest).map (fun q => -q)
    else if d = '0' then
      match rest with
      | [] => parseDec t
      | c :: rest' =>
        if c = 'x' ∨ c = 'X' then parseRadix 16 rest'
        else if c = 'o' ∨ c = 'O' then parseRadix 8 rest'
        else if c = 'b' ∨ c = 'B' then parseRadix 2 rest'
        else parseDec t
    else parseDec t

/-- Model of JavaScript `Number(string)` : surrounding whitespace is ignored,
the empty (or all-whitespace) string converts to `0`, and `none` models a
non-finite result (`NaN` or an infinity). -/
def jsNumber (s : List Char) : Option ℚ :=
  let t := trimChars s
  if t = [] then some 0 else parseNum t

/-- Error message for an invalid range token, as built by `parsePageString`. -/
def rangeMsg (part : List Char) (max : ℕ) : String :=
  "Invalid range: \"" ++ String.mk part ++ "\". Pages must be between 1 and "
    ++ toString max ++ "."

/-- Error message for an invalid single-page token, as built by
`parsePageString`. -/
def pageMsg (part : List Char) (max : ℕ) : String :=
  "Invalid page: \"" ++ String.mk part ++ "\". Pages must be between 1 and "
    ++ toString max ++ "."

/-- Model of `Set.prototype.add` on an insertion-ordered list of distinct
numbers. -/
def setAdd (pgs : List ℚ) (x : ℚ) : List ℚ := if x ∈ pgs then pgs else pgs ++ [x]

/-- Number of iterations of `for (let i = start; i <= end; i++)` when
`start ≤ end` : the loop runs for `i = start + k`, `k` an integer with
`start + k ≤ end`, that is for `k ≤ ⌊end − start⌋`. `(e − s).num / (e − s).den`
is `⌊e − s⌋` (`Rat.floor_def`), written this way so that it evaluates by
kernel reduction. -/
def loopCount (s e : ℚ) : ℕ := ((e - s).num / ((e - s).den : ℤ)).toNat + 1

/-- Model of the range loop
`for (let i = start; i <= end; i++) pages.add(i - 1)`. -/
def addRange (s e : ℚ) (pgs : List ℚ) : List ℚ :=
  if s ≤ e then
    (List.range (loopCount s e)).foldl (fun ps (k : ℕ) => setAdd ps (s + (k : ℚ) - 1)) pgs
  else pgs

/-- Body of the token loop of `parsePageString` for one trimmed token
`part` : the range branch destructures the first two `'-'`-separated pieces
(`const [start, end] = part.split('-').map(Number)`), the single-page branch
converts the whole token. The guard order and the error messages follow the
source exactly. -/
def processPart (part : List Char) (max : ℕ) (pgs : List ℚ) :
    Except String (List ℚ) :=
  if '-' ∈ part then
    match splitOnChar '-' part with
    | p0 :: p1 :: _ =>
      match jsNumber p0, jsNumber p1 with
      | some s, some e =>
        if e < s ∨ s < 1 ∨ (max : ℚ) < e then .error (rangeMsg part max)
        else .ok (addRange s e pgs)
      | _, _ => .error (rangeMsg part max)
    | _ => .error (rangeMsg part max)
  else
    match jsNumber part with
    | some p =>
      if p < 1 ∨ (max : ℚ) < p then .error (pageMsg part max)
      else .ok (setAdd pgs (p - 1))
    | none => .error (pageMsg part max)

/-- The `for (const part of parts)` loop : tokens are processed left to
right, the first invalid token aborts with its error. -/
def runParts (max : ℕ) : List (List Char) → List ℚ → Except String (List ℚ)
  | [], pgs => .ok pgs
  | p :: ps, pgs =>
    match processPart p max pgs with
    | .error m => .error m
    | .ok pgs' => runParts max ps pgs'

/-- Model of `parsePageString(input, max)` from src/App.tsx : split on `,`,
trim each token, process the tokens, check the two empty-result branches in
source order, and return the pages sorted ascending
(`Array.from(pages).sort((a, b) => a - b)`). -/
def parsePageString (input : String) (max : ℕ) : Except String (List ℚ) :=
  match runParts max ((splitOnChar ',' input.data).map trimChars) [] with
  | .error m => .error m
  | .ok pages =>
    if pages.length = 0 ∧ 0 < input.data.length then
      .error ("Please enter valid page numbers.")
    else if pages.length = 0 then
      .error ("No pages selected. Please enter page numbers to extract.")
    else .ok (List.insertionSort (fun a b => a ≤ b) pages)

/-- A thrown JavaScript error as observed by the catch blocks : only its
`message` property matters there. `none` models a missing (`undefined`)
message. -/
structure JsError where
  message : Option String
deriving DecidableEq

/-- Model of `m || d` for the `message` property : a missing or empty
message is falsy and selects the fallback. -/
def jsOrString : Option String → String → String
  | some m, d => if m = "" then d else m
  | none, d => d

/-- Fallback error message of the catch block of `handleExtract`. -/
def genericProcessingMessage : String :=
  "An unexpected error occurred during PDF processing."

/-- Model of the `handleExtract` pipeline of src/App.tsx restricted to its
observable outcome : parse the page string, then run the load step and the
copy-pages / save step (each given as the outcome of the black-box
collaborator), with the single catch block mapping any thrown error `e` to
`e.message || 'An unexpected error occurred during PDF processing.'`.
The parser throws `new Error(msg)`, whose `message` is `msg`. Documents and
output bytes are abstracted as `ℕ` and `List ℕ`. -/
def handleExtractResult (pageInput : String) (totalPages : ℕ)
    (load : Except JsError ℕ) (build : ℕ → List ℚ → Except JsError (List ℕ)) :
    Except String (List ℕ) :=
  match parsePageString pageInput totalPages with
  | .error msg => .error (jsOrString (some msg) genericProcessingMessage)
  | .ok idxs =>
    match load with
    | .error e => .error (jsOrString e.message genericProcessingMessage)
    | .ok doc =>
      match build doc idxs with
      | .error e => .error (jsOrString e.message genericProcessingMessage)
      | .ok bytes => .ok bytes

/-- A document-load failure as observed by the catch block of
`handleFileSelect` : the constructor name of the thrown error and its
(possibly missing) `message`. -/
structure LoadError where
  ctorName : String
  message : Option String
deriving DecidableEq

/-- Whether `needle` occurs as a contiguous run inside `hay`
(`String.prototype.includes`). -/
def containsSeq (needle : List Char) : List Char → Bool
  | [] => needle.isEmpty
  | c :: rest => needle.isPrefixOf (c :: rest) || containsSeq needle rest

/-- Model of `e.message && e.message.toLowerCase().includes('encrypted')` :
falsy (missing or empty) messages yield `false`. `toLowerCase` is modelled
by `Char.toLower` (ASCII; adequate for the needle `encrypted`). -/
def messageSignalsEncrypted : Option String → Bool
  | none => false
  | some m =>
    if m = "" then false
    else containsSeq ("encrypted".data) (m.data.map Char.toLower)

/-- Password-specific load-failure message of `handleFileSelect`. -/
def passwordProtectedMessage : String :=
  "This PDF is password-protected. This application cannot process encrypted or password-protected files."

/-- Generic load-failure message of `handleFileSelect`. -/
def corruptedFileMessage : String :=
  "Could not read the PDF file. Please ensure it is a valid, uncorrupted file."

/-- Model of the load-failure classification in the catch block of
`handleFileSelect` : the generic message is overridden by the
password-protection message when the error's constructor name is
`PDFInvalidPasswordError` or its message mentions `encrypted`. -/
def classifyLoadError (e : LoadError) : String :=
  if e.ctorName = "PDFInvalidPasswordError" ∨ messageSignalsEncrypted e.message = true
  then passwordProtectedMessage
  else corruptedFileMessage

/-- The decimal digit characters. -/
def digitChar : ℕ → Char
  | 0 => '0' | 1 => '1' | 2 => '2' | 3 => '3' | 4 => '4'
  | 5 => '5' | 6 => '6' | 7 => '7' | 8 => '8' | _ => '9'

/-- Decimal digits of `n`, most significant first, with explicit fuel so
that the definition is structurally recursive (the fuel `n + 1` always
suffices). -/
def natDigitsAux : ℕ → ℕ → List Char
  | 0, _ => []
  | f + 1, n =>
    if n < 10 then [digitChar n]
    else natDigitsAux f (n / 10) ++ [digitChar (n % 10)]

/-- Decimal representation of a natural number as a character list. -/
def natDigits (n : ℕ) : List Char := natDigitsAux (n + 1) n

/-- One character of the space-insertion transformation : a space is placed
on both sides of every `,` and of every `-`. -/
def padChar (c : Char) : List Char :=
  if c = ',' then [' ', ',', ' ']
  else if c = '-' then [' ', '-', ' ']
  else [c]

/-- Concatenation of `padChar` over a character list. -/
def flatPad : List Char → List Char
  | [] => []
  | c :: r => padChar c ++ flatPad r

/-- The space-insertion transformation on whole inputs : a space at either
end and spaces around every comma and every hyphen. -/
def padSpaces (s : String) : String := String.mk (' ' :: (flatPad s.data ++ [' ']))

/-- Forget the error message of a result, keeping only its shape and its
success value. -/
def dropMsg {α : Type} : Except String α → Except Unit α
  | .ok a => .ok a
  | .error _ => .error ()

/-- Apply `f` to the last piece of a piece list. -/
def modifyLastCL (f : List Char → List Char) : List (List Char) → List (List Char)
  | [] => []
  | [p] => [f p]
  | p :: q :: ps => p :: modifyLastCL f (q :: ps)

/-- How space padding around separators decorates the pieces after the
first : every such piece gains a leading space, and every such piece except
the final one also gains a trailing space. -/
def padMid : List (List Char) → List (List Char)
  | [] => []
  | [p] => [' ' :: p]
  | p :: q :: ps => (' ' :: (p ++ [' '])) :: padMid (q :: ps)

/-- How space padding around separators decorates a full piece list : the
first piece gains a trailing space when another piece follows, and the
later pieces are decorated by `padMid`. -/
def padParts : List (List Char) → List (List Char)
  | [] => []
  | [p] => [p]
  | p :: q :: ps => (p ++ [' ']) :: padMid (q :: ps)

/-! ### Splitting lemmas -/

theorem splitAux_cons (c a : Char) (l : List Char) :
    splitAux c (a :: l) =
      if a = c then ([], (splitAux c l).1 :: (splitAux c l).2)
      else (a :: (splitAux c l).1, (splitAux c l).2) := by
  simp [splitAux]

theorem splitAux_of_not_mem {c : Char} {l : List Char} (h : c ∉ l) :
    splitAux c l = (l, []) := by
  induction l with
  | nil => rfl
  | cons a l ih =>
    simp only [List.mem_cons, not_or] at h
    rw [splitAux_cons, if_neg (fun hac => h.1 hac.symm), ih h.2]

theorem splitOnChar_of_not_mem {c : Char} {l : List Char} (h : c ∉ l) :
    splitOnChar c l = [l] := by
  simp [splitOnChar, splitAux_of_not_mem h]

theorem splitAux_append_sep (c : Char) (x y : List Char) :
    splitAux c (x ++ c :: y) =
      ((splitAux c x).1, (splitAux c x).2 ++ splitOnChar c y) := by
  induction x with
  | nil => simp [splitAux, splitOnChar]
  | cons a x ih =>
    by_cases hac : a = c
    · subst hac
      rw [List.cons_append, splitAux_cons, if_pos rfl, splitAux_cons, if_pos rfl, ih]
      simp [splitOnChar]
    · rw [List.cons_append, splitAux_cons, if_neg hac, splitAux_cons, if_neg hac, ih]

theorem splitOnChar_append_sep (c : Char) (x y : List Char) :
    splitOnChar c (x ++ c :: y) = splitOnChar c x ++ splitOnChar c y := by
  simp [splitOnChar, splitAux_append_sep]

theorem not_mem_splitAux (c : Char) (l : List Char) :
    c ∉ (splitAux c l).1 ∧ ∀ p ∈ (splitAux c l).2, c ∉ p := by
  induction l with
  | nil => simp [splitAux]
  | cons a l ih =>
    rw [splitAux_cons]
    by_cases hac : a = c
    · subst hac
      rw [if_pos rfl]
      refine ⟨by simp, ?_⟩
      intro p hp
      rcases List.mem_cons.1 hp with h | h
      · exact h ▸ ih.1
      · exact ih.2 p h
    · rw [if_neg hac]
      exact ⟨by simp [List.mem_cons, Ne.symm hac, ih.1], fun p hp => ih.2 p hp⟩

theorem not_mem_of_mem_splitOnChar {c : Char} {l p : List Char}
    (hp : p ∈ splitOnChar c l) : c ∉ p := by
  rcases List.mem_cons.1 hp with h | h
  · exact h ▸ (not_mem_splitAux c l).1
  · exact (not_mem_splitAux c l).2 p h

theorem not_mem_splitAux_of_not_mem {c d : Char} {l : List Char} (h : d ∉ l) :
    d ∉ (splitAux c l).1 ∧ ∀ p ∈ (splitAux c l).2, d ∉ p := by
  induction l with
  | nil => simp [splitAux]
  | cons a l ih =>
    simp only [List.mem_cons, not_or] at h
    have ih' := ih h.2
    rw [splitAux_cons]
    by_cases hac : a = c
    · rw [if_pos hac]
      refine ⟨by simp, ?_⟩
      intro p hp
      rcases List.mem_cons.1 hp with h' | h'
      · exact h' ▸ ih'.1
      · exact ih'.2 p h'
    · rw [if_neg hac]
      exact ⟨by simp [List.mem_cons, h.1, ih'.1], fun p hp => ih'.2 p hp⟩

theorem not_mem_of_mem_splitOnChar_of_not_mem {c d : Char} {l p : List Char}
    (h : d ∉ l) (hp : p ∈ splitOnChar c l) : d ∉ p := by
  rcases List.mem_cons.1 hp with h' | h'
  · exact h' ▸ (not_mem_splitAux_of_not_mem h).1
  · exact (not_mem_splitAux_of_not_mem h).2 p h'

theorem mem_iff_splitAux_snd_ne_nil (c : Char) (l : List Char) :
    c ∈ l ↔ (splitAux c l).2 ≠ [] := by
  induction l with
  | nil => simp [splitAux]
  | cons a l ih =>
    rw [splitAux_cons]
    by_cases hac : a = c
    · subst hac
      simp
    · simp [List.mem_cons, Ne.symm hac, if_neg hac, ih]

/-! ### Trimming lemmas -/

theorem lstrip_cons_of_ws {a : Char} (ha : isWS a = true) (l : List Char) :
    lstrip (a :: l) = lstrip l := by
  rw [lstrip, List.dropWhile_cons_of_pos ha]; rfl

theorem lstrip_cons_of_not_ws {a : Char} (ha : isWS a = false) (l : List Char) :
    lstrip (a :: l) = a :: l := by
  rw [lstrip, List.dropWhile_cons_of_neg (by simp [ha])]

theorem dropWhile_isWS_idem (l : List Char) :
    List.dropWhile isWS (List.dropWhile isWS l) = List.dropWhile isWS l := by
  induction l with
  | nil => rfl
  | cons a l ih =>
    by_cases h : isWS a = true
    · rwa [List.dropWhile_cons_of_pos h]
    · rw [List.dropWhile_cons_of_neg (by simp [h]),
        List.dropWhile_cons_of_neg (by simp [h])]

theorem lstrip_idem (l : List Char) : lstrip (lstrip l) = lstrip l :=
  dropWhile_isWS_idem l

theorem rstrip_idem (l : List Char) : rstrip (rstrip l) = rstrip l := by
  simp only [rstrip, List.reverse_reverse]
  rw [dropWhile_isWS_idem]

theorem rstrip_cons (a : Char) (l : List Char) :
    rstrip (a :: l) =
      if rstrip l = [] then (if isWS a = true then [] else [a])
      else a :: rstrip l := by
  simp only [rstrip, List.reverse_cons, List.dropWhile_append]
  by_cases h : List.dropWhile isWS l.reverse = []
  · rw [h]
    by_cases ha : isWS a = true
    · simp [List.dropWhile_cons_of_pos ha, ha]
    · simp [List.dropWhile_cons_of_neg ha, ha]
  · simp [h, List.reverse_append]

theorem rstrip_snoc_of_ws {a : Char} (ha : isWS a = true) (l : List Char) :
    rstrip (l ++ [a]) = rstrip l := by
  simp only [rstrip, List.reverse_append, List.reverse_cons, List.reverse_nil,
    List.nil_append, List.cons_append, List.dropWhile_cons_of_pos ha]

theorem lstrip_rstrip_comm (l : List Char) : lstrip (rstrip l) = rstrip (lstrip l) := by
  induction l with
  | nil => rfl
  | cons a l ih =>
    by_cases ha : isWS a = true
    · rw [rstrip_cons]
      by_cases h : rstrip l = []
      · rw [if_pos h, if_pos ha, lstrip_cons_of_ws ha, ← ih, h]
      · rw [if_neg h, lstrip_cons_of_ws ha, lstrip_cons_of_ws ha]
        exact ih
    · have ha' : isWS a = false := by simpa using ha
      rw [lstrip_cons_of_not_ws ha', rstrip_cons]
      by_cases h : rstrip l = []
      · rw [if_pos h, if_neg ha]
        exact lstrip_cons_of_not_ws ha' []
      · rw [if_neg h]
        exact lstrip_cons_of_not_ws ha' _

theorem trimChars_eq_lstrip_rstrip (l : List Char) :
    trimChars l = lstrip (rstrip l) := (lstrip_rstrip_comm l).symm

theorem trimChars_cons_of_ws {a : Char} (ha : isWS a = true) (l : List Char) :
    trimChars (a :: l) = trimChars l := by
  rw [trimChars, lstrip_cons_of_ws ha]; rfl

theorem trimChars_snoc_of_ws {a : Char} (ha : isWS a = true) (l : List Char) :
    trimChars (l ++ [a]) = trimChars l := by
  rw [trimChars_eq_lstrip_rstrip, rstrip_snoc_of_ws ha, trimChars_eq_lstrip_rstrip]

theorem trimChars_lstrip (l : List Char) : trimChars (lstrip l) = trimChars l := by
  rw [trimChars, lstrip_idem]; rfl

theorem trimChars_rstrip (l : List Char) : trimChars (rstrip l) = trimChars l := by
  rw [trimChars_eq_lstrip_rstrip, rstrip_idem, trimChars_eq_lstrip_rstrip]

theorem trimChars_idem (l : List Char) : trimChars (trimChars l) = trimChars l := by
  have h1 : trimChars (trimChars l) = trimChars (rstrip (lstrip l)) := rfl
  rw [h1, trimChars_rstrip, trimChars_lstrip]

theorem trimChars_of_not_ws {l : List Char} (h : ∀ c ∈ l, isWS c = false) :
    trimChars l = l := by
  have h1 : lstrip l = l := by
    cases l with
    | nil => rfl
    | cons a t => exact lstrip_cons_of_not_ws (h a (by simp)) t
  have h2 : rstrip l = l := by
    cases hrev : l.reverse with
    | nil => simp [rstrip, hrev, List.reverse_eq_nil_iff.1 hrev]
    | cons a t =>
      have ha : a ∈ l := by
        rw [← List.mem_reverse, hrev]; simp
      rw [rstrip, hrev, List.dropWhile_cons_of_neg (by simp [h a ha]), ← hrev,
        List.reverse_reverse]
  rw [trimChars, h1, h2]

theorem mem_lstrip_of_mem {d : Char} (hd : isWS d = false) {l : List Char}
    (h : d ∈ l) : d ∈ lstrip l := by
  induction l with
  | nil => cases h
  | cons a l ih =>
    by_cases ha : isWS a = true
    · rw [lstrip_cons_of_ws ha]
      rcases List.mem_cons.1 h with h' | h'
      · rw [h'] at hd
        exact absurd ha (by simp [hd])
      · exact ih h'
    · rw [lstrip_cons_of_not_ws (by simpa using ha)]
      exact h

theorem mem_rstrip_of_mem {d : Char} (hd : isWS d = false) {l : List Char}
    (h : d ∈ l) : d ∈ rstrip l := by
  rw [rstrip, List.mem_reverse]
  exact mem_lstrip_of_mem hd (List.mem_reverse.2 h)

theorem rstrip_sublist (x : List Char) : List.Sublist (rstrip x) x := by
  have h3 : List.Sublist (List.dropWhile isWS x.reverse) x.reverse :=
    List.dropWhile_sublist isWS
  have h4 := h3.reverse
  simpa [rstrip] using h4

theorem trimChars_sublist (l : List Char) : List.Sublist (trimChars l) l :=
  (rstrip_sublist (lstrip l)).trans (List.dropWhile_sublist isWS)

theorem mem_trimChars {d : Char} (hd : isWS d = false) (l : List Char) :
    d ∈ trimChars l ↔ d ∈ l :=
  ⟨fun h => List.Sublist.mem h (trimChars_sublist l),
   fun h => mem_rstrip_of_mem hd (mem_lstrip_of_mem hd h)⟩

/-! ### Digit strings and `jsNumber` -/

theorem digitChar_isDigit (m : ℕ) : (digitChar m).isDigit = true := by
  rcases m with _|_|_|_|_|_|_|_|_|m <;> rfl

theorem digitVal_digitChar {m : ℕ} (h : m < 10) : digitVal (digitChar m) = m := by
  rcases m with _|_|_|_|_|_|_|_|_|m
  · rfl
  · rfl
  · rfl
  · rfl
  · rfl
  · rfl
  · rfl
  · rfl
  · rfl
  · have hm : m = 0 := by omega
    subst hm; rfl

theorem isDigit_ne {c x : Char} (h : c.isDigit = true) (hx : x.isDigit = false) :
    c ≠ x := by
  intro he
  rw [he, hx] at h
  cases h

theorem isWS_eq_false_of_isDigit {c : Char} (h : c.isDigit = true) :
    isWS c = false := by
  by_contra hws
  have hws' : isWS c = true := by simpa using hws
  simp only [isWS, Bool.or_eq_true, decide_eq_true_eq] at hws'
  rcases hws' with (((((((h'|h')|h')|h')|h')|h')|h')|h') <;> subst h' <;> simp at h

theorem takeWhile_isDigit_of_all {t : List Char} (h : ∀ c ∈ t, c.isDigit = true) :
    t.takeWhile Char.isDigit = t := by
  induction t with
  | nil => rfl
  | cons a t ih =>
    rw [List.takeWhile_cons, if_pos (h a (by simp)), ih fun c hc => h c (by simp [hc])]

theorem dropWhile_isDigit_of_all {t : List Char} (h : ∀ c ∈ t, c.isDigit = true) :
    t.dropWhile Char.isDigit = [] := by
  induction t with
  | nil => rfl
  | cons a t ih =>
    rw [List.dropWhile_cons_of_pos (h a (by simp))]
    exact ih fun c hc => h c (by simp [hc])

theorem digitsVal_append_digit (xs : List Char) (c : Char) :
    digitsVal (xs ++ [c]) = 10 * digitsVal xs + digitVal c := by
  simp [digitsVal, List.foldl_append]

theorem natDigitsAux_spec :
    ∀ f n, n < f →
      natDigitsAux f n ≠ [] ∧ (∀ c ∈ natDigitsAux f n, c.isDigit = true) ∧
        digitsVal (natDigitsAux f n) = n := by
  intro f
  induction f with
  | zero => intro n hn; omega
  | succ f ih =>
    intro n hn
    rw [natDigitsAux]
    by_cases h10 : n < 10
    · rw [if_pos h10]
      refine ⟨by simp, ?_, ?_⟩
      · intro c hc
        rcases List.mem_singleton.1 hc with rfl
        exact digitChar_isDigit n
      · simp [digitsVal, digitVal_digitChar h10]
    · rw [if_neg h10]
      have hdiv : n / 10 < f := by
        have h1 : n / 10 < n := Nat.div_lt_self (by omega) (by omega)
        omega
      obtain ⟨hne, hdig, hval⟩ := ih (n / 10) hdiv
      refine ⟨by simp, ?_, ?_⟩
      · intro c hc
        rcases List.mem_append.1 hc with hc | hc
        · exact hdig c hc
        · rcases List.mem_singleton.1 hc with rfl
          exact digitChar_isDigit _
      · rw [digitsVal_append_digit, hval, digitVal_digitChar (Nat.mod_lt n (by omega))]
        omega

theorem natDigits_ne_nil (n : ℕ) : natDigits n ≠ [] :=
  (natDigitsAux_spec (n + 1) n (by omega)).1

theorem natDigits_all_digits (n : ℕ) : ∀ c ∈ natDigits n, c.isDigit = true :=
  (natDigitsAux_spec (n + 1) n (by omega)).2.1

theorem digitsVal_natDigits (n : ℕ) : digitsVal (natDigits n) = n :=
  (natDigitsAux_spec (n + 1) n (by omega)).2.2

theorem parseDec_digits {t : List Char} (h : ∀ c ∈ t, c.isDigit = true)
    (hne : t ≠ []) : parseDec t = some ((digitsVal t : ℕ) : ℚ) := by
  have hInf : t ≠ ['I', 'n', 'f', 'i', 'n', 'i', 't', 'y'] := by
    intro he
    have := h 'I' (by rw [he]; simp)
    simp at this
  rw [parseDec, if_neg hInf]
  simp only [takeWhile_isDigit_of_all h, dropWhile_isDigit_of_all h]
  rw [if_neg hne]
  have hm : mkRat ((digitsVal ([] : List Char) : ℕ) : ℤ) (10 ^ ([] : List Char).length) = 0 := by
    decide
  simp [parseTail, hm, digitsVal]

theorem parseNum_digits {t : List Char} (h : ∀ c ∈ t, c.isDigit = true)
    (hne : t ≠ []) : parseNum t = parseDec t := by
  cases t with
  | nil => exact absurd rfl hne
  | cons d rest =>
    have hd : d.isDigit = true := h d (by simp)
    simp only [parseNum]
    rw [if_neg (isDigit_ne hd (by decide)), if_neg (isDigit_ne hd (by decide))]
    by_cases hd0 : d = '0'
    · rw [if_pos hd0]
      cases rest with
      | nil => rfl
      | cons c rest' =>
        have hc : c.isDigit = true := h c (by simp)
        show (if c = 'x' ∨ c = 'X' then parseRadix 16 rest'
          else if c = 'o' ∨ c = 'O' then parseRadix 8 rest'
          else if c = 'b' ∨ c = 'B' then parseRadix 2 rest'
          else parseDec (d :: c :: rest')) = parseDec (d :: c :: rest')
        rw [if_neg (by rintro (h1 | h1) <;> exact isDigit_ne hc (by decide) h1),
          if_neg (by rintro (h1 | h1) <;> exact isDigit_ne hc (by decide) h1),
          if_neg (by rintro (h1 | h1) <;> exact isDigit_ne hc (by decide) h1)]
    · rw [if_neg hd0]

theorem jsNumber_digits {t : List Char} (h : ∀ c ∈ t, c.isDigit = true)
    (hne : t ≠ []) : jsNumber t = some ((digitsVal t : ℕ) : ℚ) := by
  rw [jsNumber]
  simp only [trimChars_of_not_ws fun c hc => isWS_eq_false_of_isDigit (h c hc)]
  rw [if_neg hne, parseNum_digits h hne, parseDec_digits h hne]

theorem jsNumber_natDigits (n : ℕ) : jsNumber (natDigits n) = some ((n : ℕ) : ℚ) := by
  rw [jsNumber_digits (natDigits_all_digits n) (natDigits_ne_nil n), digitsVal_natDigits]

/-! ### `setAdd`, `addRange` and `processPart` -/

theorem mem_setAdd {pgs : List ℚ} {x y : ℚ} :
    y ∈ setAdd pgs x ↔ y ∈ pgs ∨ y = x := by
  rw [setAdd]
  by_cases h : x ∈ pgs
  · rw [if_pos h]
    exact ⟨fun hy => Or.inl hy, fun hy => hy.elim id fun he => he ▸ h⟩
  · rw [if_neg h]
    simp

theorem setAdd_nodup {pgs : List ℚ} {x : ℚ} (h : pgs.Nodup) : (setAdd pgs x).Nodup := by
  rw [setAdd]
  by_cases hx : x ∈ pgs
  · rwa [if_pos hx]
  · rw [if_neg hx]
    exact List.nodup_append.2 ⟨h, by simp, by
      intro a ha hb
      rcases List.mem_singleton.1 hb with rfl
      exact hx ha⟩

theorem mem_foldl_setAdd (f : ℕ → ℚ) :
    ∀ (ks : List ℕ) (pgs : List ℚ) (y : ℚ),
      y ∈ ks.foldl (fun ps k => setAdd ps (f k)) pgs ↔ y ∈ pgs ∨ ∃ k ∈ ks, y = f k := by
  intro ks
  induction ks with
  | nil => simp
  | cons k ks ih =>
    intro pgs y
    rw [List.foldl_cons, ih, mem_setAdd]
    constructor
    · rintro ((hy | hy) | ⟨k', hk', hy⟩)
      · exact Or.inl hy
      · exact Or.inr ⟨k, by simp, hy⟩
      · exact Or.inr ⟨k', by simp [hk'], hy⟩
    · rintro (hy | ⟨k', hk', hy⟩)
      · exact Or.inl (Or.inl hy)
      · rcases List.mem_cons.1 hk' with rfl | hk'
        · exact Or.inl (Or.inr hy)
        · exact Or.inr ⟨k', hk', hy⟩

theorem foldl_setAdd_nodup (f : ℕ → ℚ) :
    ∀ (ks : List ℕ) (pgs : List ℚ), pgs.Nodup →
      (ks.foldl (fun ps k => setAdd ps (f k)) pgs).Nodup := by
  intro ks
  induction ks with
  | nil => exact fun pgs h => h
  | cons k ks ih =>
    intro pgs h
    rw [List.foldl_cons]
    exact ih _ (setAdd_nodup h)

theorem loopCount_natCast {a b : ℕ} (hab : a ≤ b) :
    loopCount (a : ℚ) (b : ℚ) = b - a + 1 := by
  have hcast : (b : ℚ) - (a : ℚ) = ((b - a : ℕ) : ℚ) := by
    rw [Nat.cast_sub hab]
  rw [loopCount, hcast, Rat.num_natCast, Rat.den_natCast]
  simp

theorem addRange_natCast {a b : ℕ} (hab : a ≤ b) (pgs : List ℚ) :
    addRange (a : ℚ) (b : ℚ) pgs =
      (List.range (b - a + 1)).foldl (fun ps (k : ℕ) => setAdd ps ((a : ℚ) + (k : ℚ) - 1)) pgs := by
  rw [addRange, if_pos (by exact_mod_cast hab), loopCount_natCast hab]

theorem addRange_nodup {s e : ℚ} {pgs : List ℚ} (h : pgs.Nodup) :
    (addRange s e pgs).Nodup := by
  rw [addRange]
  by_cases hse : s ≤ e
  · rw [if_pos hse]
    exact foldl_setAdd_nodup _ _ _ h
  · rwa [if_neg hse]

theorem mem_addRange {s e : ℚ} {pgs : List ℚ} {y : ℚ} (hy : y ∈ addRange s e pgs) :
    y ∈ pgs ∨ ∃ k : ℕ, k < loopCount s e ∧ y = s + (k : ℚ) - 1 := by
  rw [addRange] at hy
  by_cases hse : s ≤ e
  · rw [if_pos hse] at hy
    rcases (mem_foldl_setAdd _ _ _ _).1 hy with h | ⟨k, hk, h⟩
    · exact Or.inl h
    · exact Or.inr ⟨k, List.mem_range.1 hk, h⟩
  · rw [if_neg hse] at hy
    exact Or.inl hy

theorem lt_of_lt_loopCount {s e : ℚ} {k : ℕ} (hse : s ≤ e) (hk : k < loopCount s e) :
    (k : ℚ) ≤ e - s := by
  have hfloor : ((e - s).num / ((e - s).den : ℤ)) = ⌊e - s⌋ := Rat.floor_def.symm
  have h0 : (0 : ℤ) ≤ ⌊e - s⌋ := by
    rw [Int.le_floor]
    simpa using hse
  have hk' : (k : ℤ) ≤ ⌊e - s⌋ := by
    rw [loopCount, hfloor] at hk
    omega
  calc (k : ℚ) ≤ (⌊e - s⌋ : ℚ) := by exact_mod_cast hk'
    _ ≤ e - s := Int.floor_le _

theorem processPart_natDigits {max k : ℕ} (h1 : 1 ≤ k) (h2 : k ≤ max)
    (pgs : List ℚ) :
    processPart (natDigits k) max pgs = .ok (setAdd pgs ((k : ℚ) - 1)) := by
  have hnd : '-' ∉ natDigits k := fun hmem =>
    absurd (natDigits_all_digits k '-' hmem) (by decide)
  rw [processPart, if_neg hnd]
  simp only [jsNumber_natDigits]
  rw [if_neg]
  rw [not_or]
  constructor
  · simp only [not_lt]
    exact_mod_cast h1
  · simp only [not_lt]
    exact_mod_cast h2

theorem processPart_range_natDigits {max a b : ℕ} (h1 : 1 ≤ a) (h2 : a ≤ b)
    (h3 : b ≤ max) (pgs : List ℚ) :
    processPart (natDigits a ++ '-' :: natDigits b) max pgs =
      .ok (addRange (a : ℚ) (b : ℚ) pgs) := by
  have hA : '-' ∉ natDigits a := fun hmem =>
    absurd (natDigits_all_digits a '-' hmem) (by decide)
  have hB : '-' ∉ natDigits b := fun hmem =>
    absurd (natDigits_all_digits b '-' hmem) (by decide)
  have hmem : '-' ∈ natDigits a ++ '-' :: natDigits b := by simp
  have hsplit : splitOnChar '-' (natDigits a ++ '-' :: natDigits b)
      = [natDigits a, natDigits b] := by
    rw [splitOnChar_append_sep, splitOnChar_of_not_mem hA, splitOnChar_of_not_mem hB]
    rfl
  rw [processPart, if_pos hmem, hsplit]
  simp only [jsNumber_natDigits]
  rw [if_neg]
  rw [not_or, not_or]
  refine ⟨?_, ?_, ?_⟩
  · simp only [not_lt]
    exact_mod_cast h2
  · simp only [not_lt]
    exact_mod_cast h1
  · simp only [not_lt]
    exact_mod_cast h3

/-! ### Case analysis of `processPart` -/

theorem processPart_range_cases {part : List Char} {max : ℕ} {pgs : List ℚ}
    {p0 p1 : List Char} {rest : List (List Char)}
    (hd : '-' ∈ part) (hsp : splitOnChar '-' part = p0 :: p1 :: rest) :
    processPart part max pgs =
      match jsNumber p0, jsNumber p1 with
      | some s, some e =>
        if e < s ∨ s < 1 ∨ (max : ℚ) < e then .error (rangeMsg part max)
        else .ok (addRange s e pgs)
      | _, _ => .error (rangeMsg part max) := by
  rw [processPart, if_pos hd, hsp]

theorem processPart_single_cases {part : List Char} {max : ℕ} {pgs : List ℚ}
    (hd : '-' ∉ part) :
    processPart part max pgs =
      match jsNumber part with
      | some p =>
        if p < 1 ∨ (max : ℚ) < p then .error (pageMsg part max)
        else .ok (setAdd pgs (p - 1))
      | none => .error (pageMsg part max) := by
  rw [processPart, if_neg hd]

theorem splitOnChar_two_pieces {part : List Char} (hd : '-' ∈ part) :
    ∃ p0 p1 rest, splitOnChar '-' part = p0 :: p1 :: rest := by
  have h2 : (splitAux '-' part).2 ≠ [] := (mem_iff_splitAux_snd_ne_nil '-' part).1 hd
  rcases hq : (splitAux '-' part).2 with _ | ⟨q, qs⟩
  · exact absurd hq h2
  · exact ⟨(splitAux '-' part).1, q, qs, by rw [splitOnChar, hq]⟩

theorem processPart_ok_elim {part : List Char} {max : ℕ} {pgs pgs' : List ℚ}
    (hok : processPart part max pgs = .ok pgs') :
    (∃ s e : ℚ, ¬(e < s ∨ s < 1 ∨ (max : ℚ) < e) ∧ pgs' = addRange s e pgs)
    ∨ (∃ p : ℚ, ¬(p < 1 ∨ (max : ℚ) < p) ∧ pgs' = setAdd pgs (p - 1)) := by
  by_cases hd : '-' ∈ part
  · obtain ⟨p0, p1, rest, hsp⟩ := splitOnChar_two_pieces hd
    rw [processPart_range_cases hd hsp] at hok
    rcases hn0 : jsNumber p0 with _ | s <;> simp only [hn0] at hok
    · exact Except.noConfusion hok
    · rcases hn1 : jsNumber p1 with _ | e <;> simp only [hn1] at hok
      · exact Except.noConfusion hok
      · by_cases hcond : e < s ∨ s < 1 ∨ (max : ℚ) < e
        · rw [if_pos hcond] at hok
          exact Except.noConfusion hok
        · rw [if_neg hcond] at hok
          injection hok with hok
          exact Or.inl ⟨s, e, hcond, hok.symm⟩
  · rw [processPart_single_cases hd] at hok
    rcases hn : jsNumber part with _ | p <;> simp only [hn] at hok
    · exact Except.noConfusion hok
    · by_cases hcond : p < 1 ∨ (max : ℚ) < p
      · rw [if_pos hcond] at hok
        exact Except.noConfusion hok
      · rw [if_neg hcond] at hok
        injection hok with hok
        exact Or.inr ⟨p, hcond, hok.symm⟩

theorem processPart_ok_nodup {part : List Char} {max : ℕ} {pgs pgs' : List ℚ}
    (hok : processPart part max pgs = .ok pgs') (h : pgs.Nodup) : pgs'.Nodup := by
  rcases processPart_ok_elim hok with ⟨s, e, _, rfl⟩ | ⟨p, _, rfl⟩
  · exact addRange_nodup h
  · exact setAdd_nodup h

theorem processPart_ok_bounds {part : List Char} {max : ℕ} {pgs pgs' : List ℚ}
    (hok : processPart part max pgs = .ok pgs')
    (h : ∀ q ∈ pgs, 0 ≤ q ∧ q < (max : ℚ)) : ∀ q ∈ pgs', 0 ≤ q ∧ q < (max : ℚ) := by
  rcases processPart_ok_elim hok with ⟨s, e, hcond, rfl⟩ | ⟨p, hcond, rfl⟩
  · rw [not_or, not_or] at hcond
    obtain ⟨hse, hs1, hemax⟩ := hcond
    simp only [not_lt] at hse hs1 hemax
    intro q hq
    rcases mem_addRange hq with hq | ⟨k, hk, rfl⟩
    · exact h q hq
    · have hkle : (k : ℚ) ≤ e - s := lt_of_lt_loopCount hse hk
      have hk0 : (0 : ℚ) ≤ (k : ℚ) := by positivity
      constructor
      · linarith
      · linarith
  · rw [not_or] at hcond
    obtain ⟨hp1, hpmax⟩ := hcond
    simp only [not_lt] at hp1 hpmax
    intro q hq
    rcases mem_setAdd.1 hq with hq | rfl
    · exact h q hq
    · constructor
      · linarith
      · linarith

theorem runParts_preserve {P : List ℚ → Prop} {max : ℕ}
    (hstep : ∀ (part : List Char) (pgs pgs' : List ℚ),
      P pgs → processPart part max pgs = .ok pgs' → P pgs') :
    ∀ (parts : List (List Char)) (pgs pages : List ℚ),
      P pgs → runParts max parts pgs = .ok pages → P pages := by
  intro parts
  induction parts with
  | nil =>
    intro pgs pages hP hrun
    rw [runParts] at hrun
    injection hrun with hrun
    exact hrun ▸ hP
  | cons p ps ih =>
    intro pgs pages hP hrun
    rw [runParts] at hrun
    rcases hp : processPart p max pgs with m | pgs' <;> simp only [hp] at hrun
    · exact Except.noConfusion hrun
    · exact ih pgs' pages (hstep p pgs pgs' hP hp) hrun

theorem parsePageString_ok_elim {input : String} {max : ℕ} {l : List ℚ}
    (h : parsePageString input max = .ok l) :
    ∃ pages : List ℚ,
      runParts max ((splitOnChar ',' input.data).map trimChars) [] = .ok pages ∧
        pages ≠ [] ∧ l = List.insertionSort (fun a b => a ≤ b) pages := by
  rw [parsePageString] at h
  rcases hr : runParts max ((splitOnChar ',' input.data).map trimChars) [] with m | pages <;>
    simp only [hr] at h
  · exact Except.noConfusion h
  · by_cases h0 : pages.length = 0 ∧ 0 < input.data.length
    · rw [if_pos h0] at h
      exact Except.noConfusion h
    · rw [if_neg h0] at h
      by_cases h1 : pages.length = 0
      · rw [if_pos h1] at h
        exact Except.noConfusion h
      · rw [if_neg h1] at h
        injection h with h
        exact ⟨pages, rfl, fun hnil => h1 (by simp [hnil]), h.symm⟩

/-! ### Evaluation helpers and sortedness of results -/

theorem runParts_nil (max : ℕ) (pgs : List ℚ) : runParts max [] pgs = .ok pgs := rfl

theorem runParts_cons_ok {max : ℕ} {p : List Char} {ps : List (List Char)}
    {pgs pgs' : List ℚ} (h : processPart p max pgs = .ok pgs') :
    runParts max (p :: ps) pgs = runParts max ps pgs' := by
  rw [runParts]
  simp only [h]

theorem runParts_cons_error {max : ℕ} {p : List Char} {ps : List (List Char)}
    {pgs : List ℚ} {m : String} (h : processPart p max pgs = .error m) :
    runParts max (p :: ps) pgs = .error m := by
  rw [runParts]
  simp only [h]

theorem parsePageString_eval {input : String} {max : ℕ} {toks : List (List Char)}
    {pages : List ℚ} (htoks : (splitOnChar ',' input.data).map trimChars = toks)
    (hrun : runParts max toks [] = .ok pages) (hne : pages ≠ []) :
    parsePageString input max = .ok (List.insertionSort (fun a b => a ≤ b) pages) := by
  rw [parsePageString, htoks]
  simp only [hrun]
  rw [if_neg fun hc => hne (List.length_eq_zero.1 hc.1), if_neg fun hc => hne (List.length_eq_zero.1 hc)]

theorem parsePageString_eval_error {input : String} {max : ℕ} {toks : List (List Char)}
    {m : String} (htoks : (splitOnChar ',' input.data).map trimChars = toks)
    (hrun : runParts max toks [] = .error m) :
    parsePageString input max = .error m := by
  rw [parsePageString, htoks]
  simp only [hrun]

theorem parsePageString_ok_sorted {input : String} {max : ℕ} {l : List ℚ}
    (h : parsePageString input max = .ok l) :
    List.Sorted (fun a b : ℚ => a < b) l ∧ l.Nodup := by
  obtain ⟨pages, hrun, _, rfl⟩ := parsePageString_ok_elim h
  have hnd : pages.Nodup :=
    runParts_preserve (fun part pgs pgs' hP hok => processPart_ok_nodup hok hP)
      _ [] pages (by simp) hrun
  have hperm := List.perm_insertionSort (fun a b : ℚ => a ≤ b) pages
  have hnd' : (List.insertionSort (fun a b : ℚ => a ≤ b) pages).Nodup :=
    hperm.nodup_iff.2 hnd
  have hsorted : List.Sorted (fun a b : ℚ => a ≤ b)
      (List.insertionSort (fun a b : ℚ => a ≤ b) pages) :=
    List.sorted_insertionSort _ pages
  refine ⟨?_, hnd'⟩
  exact (List.Pairwise.and hsorted hnd').imp fun hab => lt_of_le_of_ne hab.1 hab.2

theorem parsePageString_ok_bounds {input : String} {max : ℕ} {l : List ℚ}
    (h : parsePageString input max = .ok l) : ∀ q ∈ l, 0 ≤ q ∧ q < (max : ℚ) := by
  obtain ⟨pages, hrun, _, rfl⟩ := parsePageString_ok_elim h
  have hb : ∀ q ∈ pages, 0 ≤ q ∧ q < (max : ℚ) :=
    runParts_preserve (fun part pgs pgs' hP hok => processPart_ok_bounds hok hP)
      _ [] pages (by simp) hrun
  intro q hq
  exact hb q ((List.perm_insertionSort (fun a b : ℚ => a ≤ b) pages).mem_iff.1 hq)

/-! ### Exact contents of an expanded range -/

theorem foldl_setAdd_range_nil (n : ℕ) (s : ℚ) :
    (List.range n).foldl (fun ps (k : ℕ) => setAdd ps (s + (k : ℚ) - 1)) [] =
      (List.range n).map (fun k : ℕ => s + (k : ℚ) - 1) := by
  induction n with
  | zero => rfl
  | succ n ih =>
    rw [List.range_succ, List.foldl_append, List.map_append, ih]
    simp only [List.foldl_cons, List.foldl_nil, List.map_cons, List.map_nil]
    rw [setAdd, if_neg]
    intro hmem
    rcases List.mem_map.1 hmem with ⟨k, hk, he⟩
    have hkq : (k : ℚ) = (n : ℚ) := by linarith
    have hkn : k = n := Nat.cast_injective hkq
    have hklt : k < n := List.mem_range.1 hk
    omega

theorem sorted_le_range_map (n : ℕ) (s : ℚ) :
    List.Sorted (fun a b : ℚ => a ≤ b)
      ((List.range n).map fun k : ℕ => s + (k : ℚ) - 1) := by
  rw [List.Sorted, List.pairwise_map]
  exact (List.pairwise_lt_range n).imp fun hkk => by
    have : ((_ : ℕ) : ℚ) < _ := Nat.cast_lt.2 hkk
    linarith

/-- C1: for every `maxPage` and every token `a-b` with integers
`1 ≤ a ≤ b ≤ maxPage`, `parseSelection` succeeds on that token and its
result contains exactly the zero-based indices `a-1, a, ..., b-1` (the
inclusive range `[a, b]` shifted down by one). -/
theorem claim1_range_token (a b max : ℕ) (h1 : 1 ≤ a) (h2 : a ≤ b) (h3 : b ≤ max) :
    parsePageString (String.mk (natDigits a ++ '-' :: natDigits b)) max =
        .ok ((List.range (b - a + 1)).map fun k : ℕ => (a : ℚ) + (k : ℚ) - 1)
      ∧ ∀ q : ℚ,
          q ∈ (List.range (b - a + 1)).map (fun k : ℕ => (a : ℚ) + (k : ℚ) - 1) ↔
            ∃ p : ℕ, a ≤ p ∧ p ≤ b ∧ q = (p : ℚ) - 1 := by
  constructor
  · have hchars : ∀ c ∈ natDigits a ++ '-' :: natDigits b, c.isDigit = true ∨ c = '-' := by
      intro c hc
      rcases List.mem_append.1 hc with hc | hc
      · exact Or.inl (natDigits_all_digits a c hc)
      · rcases List.mem_cons.1 hc with rfl | hc
        · exact Or.inr rfl
        · exact Or.inl (natDigits_all_digits b c hc)
    have hnc : ',' ∉ natDigits a ++ '-' :: natDigits b := by
      intro hc
      rcases hchars ',' hc with h | h
      · simp at h
      · simp at h
    have hnws : ∀ c ∈ natDigits a ++ '-' :: natDigits b, isWS c = false := by
      intro c hc
      rcases hchars c hc with h | h
      · exact isWS_eq_false_of_isDigit h
      · rw [h]
        decide
    have htoks : (splitOnChar ','
        (String.mk (natDigits a ++ '-' :: natDigits b)).data).map trimChars =
        [natDigits a ++ '-' :: natDigits b] := by
      show (splitOnChar ',' (natDigits a ++ '-' :: natDigits b)).map trimChars = _
      rw [splitOnChar_of_not_mem hnc]
      simp [trimChars_of_not_ws hnws]
    have hrun : runParts max [natDigits a ++ '-' :: natDigits b] [] =
        .ok (addRange (a : ℚ) (b : ℚ) []) := by
      rw [runParts_cons_ok (processPart_range_natDigits h1 h2 h3 []), runParts_nil]
    have haddr : addRange (a : ℚ) (b : ℚ) [] =
        (List.range (b - a + 1)).map (fun k : ℕ => (a : ℚ) + (k : ℚ) - 1) := by
      rw [addRange_natCast h2, foldl_setAdd_range_nil]
    have hne : (List.range (b - a + 1)).map (fun k : ℕ => (a : ℚ) + (k : ℚ) - 1) ≠ [] := by
      simp only [ne_eq, List.map_eq_nil_iff, List.range_eq_nil]
      omega
    have := parsePageString_eval htoks (haddr ▸ hrun) hne
    rwa [List.Sorted.insertionSort_eq (sorted_le_range_map _ _)] at this
  · intro q
    simp only [List.mem_map, List.mem_range]
    constructor
    · rintro ⟨k, hk, rfl⟩
      refine ⟨a + k, by omega, by omega, by push_cast; ring⟩
    · rintro ⟨p, hap, hpb, rfl⟩
      refine ⟨p - a, by omega, ?_⟩
      rw [Nat.cast_sub hap]
      ring

/-- Witness for C1 at `a = 2`, `b = 4`, `maxPage = 10`. -/
theorem claim1_range_token_witness : parsePageString ("2-4") 10 = .ok [1, 2, 3] := by
  have h := (claim1_range_token 2 4 10 (by norm_num) (by norm_num) (by norm_num)).1
  have hs : String.mk (natDigits 2 ++ '-' :: natDigits 4) = "2-4" := by decide
  have hl : ((List.range (4 - 2 + 1)).map fun k : ℕ => ((2 : ℕ) : ℚ) + (k : ℚ) - 1)
      = [1, 2, 3] := by decide
  rw [hs, hl] at h
  exact h

/-! ### Claims C3, C4, C5, C6, C10 -/

/-- C3: every successful parse yields a strictly ascending, duplicate-free
sequence; the result is independent of token order and overlaps :
`3,1,2` and `1,2,3` both yield `[0, 1, 2]`, and `1,1,1-1` (with
`maxPage ≥ 1`) yields `[0]`. -/
theorem claim3_sorted_dedup :
    (∀ (input : String) (max : ℕ) (l : List ℚ), parsePageString input max = .ok l →
      List.Sorted (fun a b : ℚ => a < b) l ∧ l.Nodup)
    ∧ (∀ max : ℕ, 3 ≤ max →
        parsePageString ("3,1,2") max = .ok [0, 1, 2]
          ∧ parsePageString ("1,2,3") max = .ok [0, 1, 2])
    ∧ (∀ max : ℕ, 1 ≤ max → parsePageString ("1,1,1-1") max = .ok [0]) := by
  refine ⟨fun input max l h => parsePageString_ok_sorted h, fun max h3 => ⟨?_, ?_⟩,
    fun max h1 => ?_⟩
  · have htoks : (splitOnChar ',' (("3,1,2") : String).data).map trimChars
        = [natDigits 3, natDigits 1, natDigits 2] := by decide
    have hrun : runParts max [natDigits 3, natDigits 1, natDigits 2] [] = .ok [2, 0, 1] := by
      rw [runParts_cons_ok (processPart_natDigits (by norm_num) h3 []),
        (by decide : setAdd [] (((3 : ℕ) : ℚ) - 1) = [2]),
        runParts_cons_ok (processPart_natDigits (by norm_num) (by omega) [2]),
        (by decide : setAdd [2] (((1 : ℕ) : ℚ) - 1) = [2, 0]),
        runParts_cons_ok (processPart_natDigits (by norm_num) (by omega) [2, 0]),
        (by decide : setAdd [2, 0] (((2 : ℕ) : ℚ) - 1) = [2, 0, 1]), runParts_nil]
    exact (parsePageString_eval htoks hrun (by decide)).trans (by decide)
  · have htoks : (splitOnChar ',' (("1,2,3") : String).data).map trimChars
        = [natDigits 1, natDigits 2, natDigits 3] := by decide
    have hrun : runParts max [natDigits 1, natDigits 2, natDigits 3] [] = .ok [0, 1, 2] := by
      rw [runParts_cons_ok (processPart_natDigits (by norm_num) (by omega) []),
        (by decide : setAdd [] (((1 : ℕ) : ℚ) - 1) = [0]),
        runParts_cons_ok (processPart_natDigits (by norm_num) (by omega) [0]),
        (by decide : setAdd [0] (((2 : ℕ) : ℚ) - 1) = [0, 1]),
        runParts_cons_ok (processPart_natDigits (by norm_num) h3 [0, 1]),
        (by decide : setAdd [0, 1] (((3 : ℕ) : ℚ) - 1) = [0, 1, 2]), runParts_nil]
    exact (parsePageString_eval htoks hrun (by decide)).trans (by decide)
  · have htoks : (splitOnChar ',' (("1,1,1-1") : String).data).map trimChars
        = [natDigits 1, natDigits 1, natDigits 1 ++ '-' :: natDigits 1] := by decide
    have hrun : runParts max [natDigits 1, natDigits 1, natDigits 1 ++ '-' :: natDigits 1] []
        = .ok [0] := by
      rw [runParts_cons_ok (processPart_natDigits (by norm_num) h1 []),
        (by decide : setAdd [] (((1 : ℕ) : ℚ) - 1) = [0]),
        runParts_cons_ok (processPart_natDigits (by norm_num) h1 [0]),
        (by decide : setAdd [0] (((1 : ℕ) : ℚ) - 1) = [0]),
        runParts_cons_ok (processPart_range_natDigits (by norm_num) (by norm_num) h1 [0]),
        (by decide : addRange ((1 : ℕ) : ℚ) ((1 : ℕ) : ℚ) [0] = [0]), runParts_nil]
    exact (parsePageString_eval htoks hrun (by decide)).trans (by decide)

/-- Witness for C3 : instances of all three conjuncts at concrete inputs. -/
theorem claim3_sorted_dedup_witness :
    (List.Sorted (fun a b : ℚ => a < b) [0, 1, 2] ∧ ([0, 1, 2] : List ℚ).Nodup)
      ∧ parsePageString ("3,1,2") 3 = .ok [0, 1, 2]
      ∧ parsePageString ("1,1,1-1") 1 = .ok [0] :=
  ⟨claim3_sorted_dedup.1 ("1,2,3") 3 [0, 1, 2]
      ((claim3_sorted_dedup.2.1 3 (by norm_num)).2),
    (claim3_sorted_dedup.2.1 3 (by norm_num)).1,
    claim3_sorted_dedup.2.2 1 (by norm_num)⟩

/-- C4 counterexample : on input `1.5` (with `maxPage = 2`) the parse
succeeds and returns the non-integer value `0.5`, so not every element of a
successful result is an integer. -/
theorem claim4_counterexample :
    parsePageString ("1.5") 2 = .ok [mkRat 1 2]
      ∧ ¬∃ n : ℤ, (mkRat 1 2 : ℚ) = (n : ℚ) := by
  refine ⟨by decide, ?_⟩
  rintro ⟨n, hn⟩
  have hd : (mkRat 1 2).den = 2 := by decide
  rw [hn, Rat.den_intCast] at hd
  exact absurd hd (by decide)

/-- C4 (amended) : every element of a successful `parseSelection` result is
a value `q` with `0 ≤ q < maxPage`; integrality can fail because `Number`
accepts fractional tokens (see the counterexample). -/
theorem claim4_bounds (input : String) (max : ℕ) (l : List ℚ)
    (h : parsePageString input max = .ok l) : ∀ q ∈ l, 0 ≤ q ∧ q < (max : ℚ) :=
  parsePageString_ok_bounds h

/-- Witness for C4 at input `1`, `maxPage = 2`. -/
theorem claim4_bounds_witness : 0 ≤ (0 : ℚ) ∧ (0 : ℚ) < ((2 : ℕ) : ℚ) :=
  claim4_bounds ("1") 2 [0] (by decide) 0 (by decide)

/-- C5 counterexample : `parseSelection("1,,2", 2)` raises a
ValidationError for the empty token instead of succeeding with `[0, 1]`. -/
theorem claim5_counterexample :
    parsePageString ("1,,2") 2 = .error ("Invalid page: \"\". Pages must be between 1 and 2.")
      ∧ parsePageString ("1,,2") 2 ≠ .ok [0, 1] := by
  exact ⟨by decide, by decide⟩

/-- C5 (amended) : empty tokens produced by leading, trailing or
consecutive commas are not ignored : processing an empty token always
raises `Invalid page: ""...` (because `Number("")` is `0`, which is below
the lower bound), so `parseSelection("1,,2", maxPage)` with `maxPage ≥ 1`
fails with that message rather than returning `[0, 1]`. -/
theorem claim5_empty_token_rejected :
    (∀ (max : ℕ) (pgs : List ℚ), processPart [] max pgs = .error (pageMsg [] max))
    ∧ ∀ max : ℕ, 1 ≤ max →
        parsePageString ("1,,2") max = .error (pageMsg [] max) := by
  have hstep : ∀ (max : ℕ) (pgs : List ℚ), processPart [] max pgs = .error (pageMsg [] max) := by
    intro max pgs
    rw [processPart_single_cases (by simp)]
    have h0 : jsNumber [] = some 0 := rfl
    simp only [h0]
    rw [if_pos (Or.inl (by norm_num))]
  refine ⟨hstep, fun max h1 => ?_⟩
  have htoks : (splitOnChar ',' (("1,,2") : String).data).map trimChars
      = [natDigits 1, [], natDigits 2] := by decide
  have hrun : runParts max [natDigits 1, [], natDigits 2] [] = .error (pageMsg [] max) := by
    rw [runParts_cons_ok (processPart_natDigits (by norm_num) h1 []),
      runParts_cons_error (hstep max (setAdd [] (((1 : ℕ) : ℚ) - 1)))]
  exact parsePageString_eval_error htoks hrun

/-- Witness for C5 at `maxPage = 2`. -/
theorem claim5_empty_token_rejected_witness :
    parsePageString ("1,,2") 2 = .error (pageMsg [] 2) :=
  claim5_empty_token_rejected.2 2 (by norm_num)

/-- C6: evaluation of the code at the failing input. On the empty input the
parser raises `Invalid page: "". Pages must be between 1 and 10.` — not the
specified `No pages selected. Please enter page numbers to extract.` —
because `"".split(',')` yields `[""]` and `Number("")` is `0`, so the
empty-result branches of `parsePageString` are unreachable. -/
theorem claim6_empty_input_eval :
    parsePageString ("") 10 = .error ("Invalid page: \"\". Pages must be between 1 and 10.")
      ∧ parsePageString ("") 10
        ≠ .error ("No pages selected. Please enter page numbers to extract.") := by
  exact ⟨by decide, by decide⟩

/-- C10: a token with two or more hyphens uses only its first two
`'-'`-separated pieces as the range endpoints; the rest is silently
discarded, so `1-3-5` is accepted (for `maxPage ≥ 3`) and yields the same
result `[0, 1, 2]` as `1-3`. -/
theorem claim10_extra_hyphens :
    (∀ (part extra : List Char) (max : ℕ) (pgs : List ℚ), '-' ∈ part →
        dropMsg (processPart (part ++ '-' :: extra) max pgs)
          = dropMsg (processPart part max pgs))
    ∧ ∀ max : ℕ, 3 ≤ max →
        parsePageString ("1-3-5") max = .ok [0, 1, 2]
          ∧ parsePageString ("1-3-5") max = parsePageString ("1-3") max := by
  constructor
  · intro part extra max pgs hd
    obtain ⟨p0, p1, rest, hsp⟩ := splitOnChar_two_pieces hd
    have hd' : '-' ∈ part ++ '-' :: extra := by simp
    have hsp' : splitOnChar '-' (part ++ '-' :: extra)
        = p0 :: p1 :: (rest ++ splitOnChar '-' extra) := by
      rw [splitOnChar_append_sep, hsp]
      rfl
    rw [processPart_range_cases hd hsp, processPart_range_cases hd' hsp']
    rcases jsNumber p0 with _ | s
    · rfl
    · rcases jsNumber p1 with _ | e
      · rfl
      · dsimp only
        by_cases hcond : e < s ∨ s < 1 ∨ (max : ℚ) < e
        · rw [if_pos hcond, if_pos hcond]
          rfl
        · rw [if_neg hcond, if_neg hcond]
  · intro max h3
    have hguard : ¬((3 : ℚ) < 1 ∨ (1 : ℚ) < 1 ∨ (max : ℚ) < 3) := by
      rw [not_or, not_or]
      refine ⟨by norm_num, by norm_num, ?_⟩
      simp only [not_lt]
      exact_mod_cast h3
    have hp1 : processPart ['1', '-', '3', '-', '5'] max [] = .ok [0, 1, 2] := by
      rw [processPart_range_cases (by decide)
        (by decide : splitOnChar '-' ['1', '-', '3', '-', '5'] = [['1'], ['3'], ['5']])]
      have hn1 : jsNumber ['1'] = some 1 := rfl
      have hn3 : jsNumber ['3'] = some 3 := rfl
      simp only [hn1, hn3]
      rw [if_neg hguard]
      exact congrArg _ (by decide)
    have hp2 : processPart ['1', '-', '3'] max [] = .ok [0, 1, 2] := by
      rw [processPart_range_cases (by decide)
        (by decide : splitOnChar '-' ['1', '-', '3'] = [['1'], ['3']])]
      have hn1 : jsNumber ['1'] = some 1 := rfl
      have hn3 : jsNumber ['3'] = some 3 := rfl
      simp only [hn1, hn3]
      rw [if_neg hguard]
      exact congrArg _ (by decide)
    have he1 : parsePageString ("1-3-5") max = .ok [0, 1, 2] := by
      have htoks : (splitOnChar ',' (("1-3-5") : String).data).map trimChars
          = [['1', '-', '3', '-', '5']] := by decide
      have hrun : runParts max [['1', '-', '3', '-', '5']] [] = .ok [0, 1, 2] := by
        rw [runParts_cons_ok hp1, runParts_nil]
      exact (parsePageString_eval htoks hrun (by decide)).trans (by decide)
    have he2 : parsePageString ("1-3") max = .ok [0, 1, 2] := by
      have htoks : (splitOnChar ',' (("1-3") : String).data).map trimChars
          = [['1', '-', '3']] := by decide
      have hrun : runParts max [['1', '-', '3']] [] = .ok [0, 1, 2] := by
        rw [runParts_cons_ok hp2, runParts_nil]
      exact (parsePageString_eval htoks hrun (by decide)).trans (by decide)
    exact ⟨he1, he1.trans he2.symm⟩

/-- Witness for C10 at `maxPage = 3` and a concrete token split. -/
theorem claim10_extra_hyphens_witness :
    parsePageString ("1-3-5") 3 = .ok [0, 1, 2]
      ∧ dropMsg (processPart (['1', '-', '3'] ++ '-' :: ['5']) 3 [])
          = dropMsg (processPart ['1', '-', '3'] 3 []) :=
  ⟨(claim10_extra_hyphens.2 3 (by norm_num)).1,
    claim10_extra_hyphens.1 ['1', '-', '3'] ['5'] 3 [] (by decide)⟩

/-! ### Claims C2, C9, C8 -/

/-- C2: a non-empty token is rejected exactly when it fails the
numeric/bounds checks, with the message naming the token and the bounds
`1..maxPage` : a token containing `-` fails iff either of its first two
pieces does not parse as a number, or `start > end`, `start < 1`, or
`end > maxPage` (message `Invalid range: ...`); any other token fails iff
it does not parse, is `< 1`, or is `> maxPage` (message
`Invalid page: ...`). With `maxPage = 10` : `0`, `11`, `5-3`, `0-2`,
`1-11` all raise ValidationError while `1-1` and `10-10` succeed. -/
theorem claim2_token_rejection :
    (∀ (t : List Char) (max : ℕ) (pgs : List ℚ), t ≠ [] → '-' ∈ t →
      ∀ p0 p1 rest, splitOnChar '-' t = p0 :: p1 :: rest →
        (((∃ m, processPart t max pgs = .error m) ↔
            (jsNumber p0 = none ∨ jsNumber p1 = none ∨
              ∃ s e : ℚ, jsNumber p0 = some s ∧ jsNumber p1 = some e ∧
                (e < s ∨ s < 1 ∨ (max : ℚ) < e)))
          ∧ ∀ m, processPart t max pgs = .error m → m = rangeMsg t max))
    ∧ (∀ (t : List Char) (max : ℕ) (pgs : List ℚ), t ≠ [] → '-' ∉ t →
        (((∃ m, processPart t max pgs = .error m) ↔
            (jsNumber t = none ∨ ∃ p : ℚ, jsNumber t = some p ∧ (p < 1 ∨ (max : ℚ) < p)))
          ∧ ∀ m, processPart t max pgs = .error m → m = pageMsg t max))
    ∧ parsePageString ("0") 10 = .error ("Invalid page: \"0\". Pages must be between 1 and 10.")
    ∧ parsePageString ("11") 10 = .error ("Invalid page: \"11\". Pages must be between 1 and 10.")
    ∧ parsePageString ("5-3") 10 = .error ("Invalid range: \"5-3\". Pages must be between 1 and 10.")
    ∧ parsePageString ("0-2") 10 = .error ("Invalid range: \"0-2\". Pages must be between 1 and 10.")
    ∧ parsePageString ("1-11") 10 = .error ("Invalid range: \"1-11\". Pages must be between 1 and 10.")
    ∧ parsePageString ("1-1") 10 = .ok [0]
    ∧ parsePageString ("10-10") 10 = .ok [9] := by
  refine ⟨?_, ?_, by decide, by decide, by decide, by decide, by decide, by decide, by decide⟩
  · intro t max pgs _ hd p0 p1 rest hsp
    rw [processPart_range_cases hd hsp]
    rcases hn0 : jsNumber p0 with _ | s
    · exact ⟨⟨fun _ => Or.inl rfl, fun _ => ⟨rangeMsg t max, rfl⟩⟩,
        fun m hm => by injection hm with hm; exact hm.symm⟩
    · rcases hn1 : jsNumber p1 with _ | e
      · exact ⟨⟨fun _ => Or.inr (Or.inl rfl), fun _ => ⟨rangeMsg t max, rfl⟩⟩,
          fun m hm => by injection hm with hm; exact hm.symm⟩
      · dsimp only
        by_cases hcond : e < s ∨ s < 1 ∨ (max : ℚ) < e
        · rw [if_pos hcond]
          exact ⟨⟨fun _ => Or.inr (Or.inr ⟨s, e, rfl, rfl, hcond⟩),
              fun _ => ⟨rangeMsg t max, rfl⟩⟩,
            fun m hm => by injection hm with hm; exact hm.symm⟩
        · rw [if_neg hcond]
          refine ⟨⟨?_, ?_⟩, fun m hm => Except.noConfusion hm⟩
          · rintro ⟨m, hm⟩
            exact Except.noConfusion hm
          · rintro (h | h | ⟨s', e', hs', he', hc⟩)
            · exact Option.noConfusion h
            · exact Option.noConfusion h
            · injection hs' with hs'
              injection he' with he'
              exact absurd (hs' ▸ he' ▸ hc) hcond
  · intro t max pgs _ hd
    rw [processPart_single_cases hd]
    rcases hn : jsNumber t with _ | p
    · exact ⟨⟨fun _ => Or.inl rfl, fun _ => ⟨pageMsg t max, rfl⟩⟩,
        fun m hm => by injection hm with hm; exact hm.symm⟩
    · dsimp only
      by_cases hcond : p < 1 ∨ (max : ℚ) < p
      · rw [if_pos hcond]
        exact ⟨⟨fun _ => Or.inr ⟨p, rfl, hcond⟩, fun _ => ⟨pageMsg t max, rfl⟩⟩,
          fun m hm => by injection hm with hm; exact hm.symm⟩
      · rw [if_neg hcond]
        refine ⟨⟨?_, ?_⟩, fun m hm => Except.noConfusion hm⟩
        · rintro ⟨m, hm⟩
          exact Except.noConfusion hm
        · rintro (h | ⟨p', hp', hc⟩)
          · exact Option.noConfusion h
          · injection hp' with hp'
            exact absurd (hp' ▸ hc) hcond

/-- Witness for C2 : the message clauses applied to the concrete rejected
tokens `5-3` and `0` with `maxPage = 10`. -/
theorem claim2_token_rejection_witness :
    ("Invalid range: \"5-3\". Pages must be between 1 and 10." = rangeMsg (("5-3") : String).data 10)
      ∧ ("Invalid page: \"0\". Pages must be between 1 and 10." = pageMsg (("0") : String).data 10) :=
  ⟨(claim2_token_rejection.1 (("5-3") : String).data 10 [] (by decide) (by decide)
      ['5'] ['3'] [] (by decide)).2
      ("Invalid range: \"5-3\". Pages must be between 1 and 10.") (by decide),
    (claim2_token_rejection.2.1 (("0") : String).data 10 [] (by decide) (by decide)).2
      ("Invalid page: \"0\". Pages must be between 1 and 10.") (by decide)⟩

/-- C9: classification of a document-load failure gives password/encryption
detection precedence : the password-protection message is reported exactly
when the error's constructor name is `PDFInvalidPasswordError` or its
(truthy) message mentions `encrypted`; every other load failure reports the
generic invalid-or-corrupted-file message, which is distinct. -/
theorem claim9_password_precedence :
    ∀ e : LoadError,
      (classifyLoadError e = passwordProtectedMessage ↔
        (e.ctorName = "PDFInvalidPasswordError" ∨ messageSignalsEncrypted e.message = true))
      ∧ ((e.ctorName ≠ "PDFInvalidPasswordError" ∧ messageSignalsEncrypted e.message = false) →
          classifyLoadError e = corruptedFileMessage)
      ∧ passwordProtectedMessage ≠ corruptedFileMessage := by
  intro e
  refine ⟨?_, ?_, by decide⟩
  · rw [classifyLoadError]
    by_cases hc : e.ctorName = "PDFInvalidPasswordError" ∨ messageSignalsEncrypted e.message = true
    · rw [if_pos hc]
      exact ⟨fun _ => hc, fun _ => rfl⟩
    · rw [if_neg hc]
      exact ⟨fun h => absurd h.symm (by decide), fun h => absurd h hc⟩
  · rintro ⟨h1, h2⟩
    rw [classifyLoadError, if_neg]
    rintro (hc | hc)
    · exact h1 hc
    · rw [h2] at hc
      exact Bool.noConfusion hc

/-- Witness for C9 : a password error, an `encrypted` message and a generic
failure, classified concretely. -/
theorem claim9_password_precedence_witness :
    classifyLoadError ⟨"Error", some ("bad xref table")⟩ = corruptedFileMessage
      ∧ classifyLoadError ⟨"PDFInvalidPasswordError", none⟩ = passwordProtectedMessage :=
  ⟨(claim9_password_precedence ⟨"Error", some ("bad xref table")⟩).2.1 ⟨by decide, by decide⟩,
    ((claim9_password_precedence ⟨"PDFInvalidPasswordError", none⟩).1).2 (Or.inl rfl)⟩

/-- C8 counterexample : a load failure whose error carries a non-empty raw
message surfaces that raw message verbatim, not the generic
`An unexpected error occurred during PDF processing.` message. -/
theorem claim8_counterexample :
    handleExtractResult ("1") 5 (.error ⟨some ("Raw pdf-lib failure detail")⟩)
        (fun _ _ => .ok []) = .error ("Raw pdf-lib failure detail")
      ∧ ("Raw pdf-lib failure detail") ≠ genericProcessingMessage := by
  exact ⟨by decide, by decide⟩

/-- C8 (amended) : the catch block of `handleExtract` evaluates
`e.message || generic` : a parser ValidationError message propagates
verbatim, a collaborator failure surfaces its own raw message whenever that
message is a non-empty string, and the generic
`An unexpected error occurred during PDF processing.` message appears only
when the thrown error has no message or an empty one. -/
theorem claim8_message_passthrough :
    (∀ (input : String) (total : ℕ) (idxs : List ℚ) (e : JsError)
        (build : ℕ → List ℚ → Except JsError (List ℕ)),
        parsePageString input total = .ok idxs →
        (e.message = none ∨ e.message = some "") →
        handleExtractResult input total (.error e) build
          = .error genericProcessingMessage)
    ∧ (∀ (input : String) (total : ℕ) (idxs : List ℚ) (e : JsError) (m : String)
          (build : ℕ → List ℚ → Except JsError (List ℕ)),
        parsePageString input total = .ok idxs → e.message = some m → m ≠ "" →
        handleExtractResult input total (.error e) build = .error m)
    ∧ (∀ (input : String) (total : ℕ) (idxs : List ℚ) (doc : ℕ) (e : JsError)
          (build : ℕ → List ℚ → Except JsError (List ℕ)),
        parsePageString input total = .ok idxs → build doc idxs = .error e →
        handleExtractResult input total (.ok doc) build
          = .error (jsOrString e.message genericProcessingMessage))
    ∧ (∀ (input : String) (total : ℕ) (msg : String) (load : Except JsError ℕ)
          (build : ℕ → List ℚ → Except JsError (List ℕ)),
        parsePageString input total = .error msg →
        handleExtractResult input total load build
          = .error (jsOrString (some msg) genericProcessingMessage)) := by
  refine ⟨?_, ?_, ?_, ?_⟩
  · intro input total idxs e build hparse hmsg
    rw [handleExtractResult]
    simp only [hparse]
    rcases hmsg with hmsg | hmsg <;> rw [hmsg] <;> simp [jsOrString]
  · intro input total idxs e m build hparse hmsg hne
    rw [handleExtractResult]
    simp only [hparse]
    rw [hmsg]
    simp [jsOrString, hne]
  · intro input total idxs doc e build hparse hbuild
    rw [handleExtractResult]
    simp only [hparse, hbuild]
  · intro input total msg load build hparse
    rw [handleExtractResult]
    simp only [hparse]

/-- Witness for C8 : concrete instances of all four clauses. -/
theorem claim8_message_passthrough_witness :
    handleExtractResult ("1") 5 (.error ⟨none⟩) (fun _ _ => .ok [])
        = .error genericProcessingMessage
      ∧ handleExtractResult ("1") 5 (.error ⟨some ("raw load error")⟩) (fun _ _ => .ok [])
          = .error ("raw load error")
      ∧ handleExtractResult ("1") 5 (.ok 0) (fun _ _ => .error ⟨some ("raw build error")⟩)
          = .error (jsOrString (some ("raw build error")) genericProcessingMessage)
      ∧ handleExtractResult ("0") 5 (.ok 0) (fun _ _ => .ok [])
          = .error (jsOrString
              (some ("Invalid page: \"0\". Pages must be between 1 and 5."))
              genericProcessingMessage) :=
  ⟨claim8_message_passthrough.1 ("1") 5 [0] ⟨none⟩ (fun _ _ => .ok []) (by decide) (Or.inl rfl),
    claim8_message_passthrough.2.1 ("1") 5 [0] ⟨some ("raw load error")⟩ ("raw load error")
      (fun _ _ => .ok []) (by decide) rfl (by decide),
    claim8_message_passthrough.2.2.1 ("1") 5 [0] 0 ⟨some ("raw build error")⟩
      (fun _ _ => .error ⟨some ("raw build error")⟩) (by decide) rfl,
    claim8_message_passthrough.2.2.2 ("0") 5
      ("Invalid page: \"0\". Pages must be between 1 and 5.") (.ok 0) (fun _ _ => .ok [])
      (by decide)⟩

/-! ### Splitting against trimming : infrastructure for C7 -/

theorem modifyLastCL_cons_of_ne_nil (f : List Char → List Char) (p : List Char)
    {ls : List (List Char)} (h : ls ≠ []) :
    modifyLastCL f (p :: ls) = p :: modifyLastCL f ls := by
  cases ls with
  | nil => exact absurd rfl h
  | cons q qs => rfl

theorem splitOnChar_cons_ne {c a : Char} (h : a ≠ c) (w : List Char) :
    splitOnChar c (a :: w) = (splitOnChar c w).modifyHead (fun p => a :: p) := by
  rw [splitOnChar, splitAux_cons, if_neg h]
  rfl

theorem splitOnChar_cons_sep (c : Char) (w : List Char) :
    splitOnChar c (c :: w) = [] :: splitOnChar c w := by
  rw [splitOnChar, splitAux_cons, if_pos rfl]
  rfl

theorem splitOnChar_ne_nil (c : Char) (w : List Char) : splitOnChar c w ≠ [] := by
  rw [splitOnChar]
  simp

theorem splitOnChar_eq_singleton {c : Char} {w p : List Char}
    (h : splitOnChar c w = [p]) : c ∉ w ∧ p = w := by
  rw [splitOnChar] at h
  injection h with h1 h2
  have hnot : c ∉ w := by
    rw [mem_iff_splitAux_snd_ne_nil, h2]
    simp
  rw [splitAux_of_not_mem hnot] at h1
  exact ⟨hnot, h1.symm⟩

theorem splitOnChar_snoc_ne {c a : Char} (h : a ≠ c) :
    ∀ w : List Char,
      splitOnChar c (w ++ [a]) = modifyLastCL (fun p => p ++ [a]) (splitOnChar c w) := by
  intro w
  induction w with
  | nil =>
    rw [List.nil_append, splitOnChar_cons_ne h]
    rfl
  | cons b w' ih =>
    by_cases hb : b = c
    · subst hb
      rw [List.cons_append, splitOnChar_cons_sep, splitOnChar_cons_sep, ih,
        modifyLastCL_cons_of_ne_nil _ _ (splitOnChar_ne_nil b w')]
    · rw [List.cons_append, splitOnChar_cons_ne hb, splitOnChar_cons_ne hb, ih]
      rcases hsp : splitOnChar c w' with _ | ⟨p, _ | ⟨q, qs⟩⟩
      · exact absurd hsp (splitOnChar_ne_nil c w')
      · rfl
      · rfl

theorem splitOnChar_lstrip {c : Char} (hc : isWS c = false) :
    ∀ w : List Char, splitOnChar c (lstrip w) = (splitOnChar c w).modifyHead lstrip := by
  intro w
  induction w with
  | nil => rfl
  | cons a w' ih =>
    by_cases ha : isWS a = true
    · have hac : a ≠ c := by
        intro he
        rw [he, hc] at ha
        cases ha
      rw [lstrip_cons_of_ws ha, ih, splitOnChar_cons_ne hac]
      rcases hsp : splitOnChar c w' with _ | ⟨p, ps⟩
      · exact absurd hsp (splitOnChar_ne_nil c w')
      · simp only [List.modifyHead_cons, lstrip_cons_of_ws ha]
    · have ha' : isWS a = false := by simpa using ha
      rw [lstrip_cons_of_not_ws ha']
      by_cases hac : a = c
      · subst hac
        rw [splitOnChar_cons_sep, List.modifyHead_cons]
        rfl
      · rw [splitOnChar_cons_ne hac]
        rcases hsp : splitOnChar c w' with _ | ⟨p, ps⟩
        · exact absurd hsp (splitOnChar_ne_nil c w')
        · simp only [List.modifyHead_cons, lstrip_cons_of_not_ws ha']

theorem rstrip_eq_nil_iff {w : List Char} : rstrip w = [] ↔ ∀ a ∈ w, isWS a = true := by
  rw [rstrip, List.reverse_eq_nil_iff, List.dropWhile_eq_nil_iff]
  constructor
  · intro h a ha
    exact h a (List.mem_reverse.2 ha)
  · intro h a ha
    exact h a (List.mem_reverse.1 ha)

theorem splitOnChar_rstrip {c : Char} (hc : isWS c = false) :
    ∀ w : List Char, splitOnChar c (rstrip w) = modifyLastCL rstrip (splitOnChar c w) := by
  intro w
  induction w with
  | nil => rfl
  | cons a w' ih =>
    rw [rstrip_cons]
    by_cases h : rstrip w' = []
    · have hws : ∀ b ∈ w', isWS b = true := rstrip_eq_nil_iff.1 h
      have hcw : c ∉ w' := by
        intro hmem
        rw [hws c hmem] at hc
        cases hc
      have hsp : splitOnChar c w' = [w'] := splitOnChar_of_not_mem hcw
      rw [if_pos h]
      by_cases ha : isWS a = true
      · have hac : a ≠ c := by
          intro he
          rw [he, hc] at ha
          cases ha
        rw [if_pos ha, splitOnChar_cons_ne hac, hsp, List.modifyHead_cons]
        have h2 : modifyLastCL rstrip [a :: w'] = [rstrip (a :: w')] := rfl
        rw [h2, rstrip_cons, if_pos h, if_pos ha]
        rfl
      · rw [if_neg ha]
        by_cases hac : a = c
        · subst hac
          rw [splitOnChar_cons_sep, splitOnChar_cons_sep, hsp,
            modifyLastCL_cons_of_ne_nil _ _ (by simp)]
          have h2 : modifyLastCL rstrip [w'] = [rstrip w'] := rfl
          rw [h2, h]
          rfl
        · rw [splitOnChar_cons_ne hac, splitOnChar_cons_ne hac, hsp, List.modifyHead_cons]
          have h4 : splitOnChar c ([] : List Char) = [[]] := rfl
          have h2 : modifyLastCL rstrip [a :: w'] = [rstrip (a :: w')] := rfl
          rw [h4, List.modifyHead_cons, h2, rstrip_cons, if_pos h, if_neg ha]
    · rw [if_neg h]
      by_cases hac : a = c
      · subst hac
        rw [splitOnChar_cons_sep, splitOnChar_cons_sep, ih,
          modifyLastCL_cons_of_ne_nil _ _ (splitOnChar_ne_nil a w')]
      · rw [splitOnChar_cons_ne hac, splitOnChar_cons_ne hac, ih]
        rcases hsp : splitOnChar c w' with _ | ⟨p, _ | ⟨q, qs⟩⟩
        · exact absurd hsp (splitOnChar_ne_nil c w')
        · obtain ⟨hcw, hpw⟩ := splitOnChar_eq_singleton hsp
          have h2 : modifyLastCL rstrip [p] = [rstrip p] := rfl
          have h3 : modifyLastCL rstrip [a :: p] = [rstrip (a :: p)] := rfl
          rw [List.modifyHead_cons, h2, List.modifyHead_cons, h3, rstrip_cons,
            if_neg (by rw [hpw]; exact h)]
        · rfl

theorem map_trim_modifyHead {f : List Char → List Char}
    (hf : ∀ p, trimChars (f p) = trimChars p) (ls : List (List Char)) :
    (ls.modifyHead f).map trimChars = ls.map trimChars := by
  cases ls with
  | nil => rfl
  | cons p ps => simp [hf]

theorem map_trim_modifyLastCL {f : List Char → List Char}
    (hf : ∀ p, trimChars (f p) = trimChars p) :
    ∀ ls : List (List Char), (modifyLastCL f ls).map trimChars = ls.map trimChars := by
  intro ls
  induction ls with
  | nil => rfl
  | cons p ps ih =>
    cases ps with
    | nil => simp [modifyLastCL, hf]
    | cons q qs =>
      have h : modifyLastCL f (p :: q :: qs) = p :: modifyLastCL f (q :: qs) := rfl
      rw [h, List.map_cons, ih, List.map_cons]
      rfl

theorem map_trim_splitOnChar_trim {c : Char} (hc : isWS c = false) (w : List Char) :
    (splitOnChar c (trimChars w)).map trimChars = (splitOnChar c w).map trimChars := by
  rw [trimChars, splitOnChar_rstrip hc, splitOnChar_lstrip hc,
    map_trim_modifyLastCL (fun p => trimChars_rstrip p),
    map_trim_modifyHead (fun p => trimChars_lstrip p)]

theorem map_trim_padMid :
    ∀ ls : List (List Char), (padMid ls).map trimChars = ls.map trimChars := by
  intro ls
  induction ls with
  | nil => rfl
  | cons p ps ih =>
    cases ps with
    | nil => simp [padMid, trimChars_cons_of_ws (show isWS ' ' = true by decide)]
    | cons q qs =>
      have h : padMid (p :: q :: qs) = (' ' :: (p ++ [' '])) :: padMid (q :: qs) := rfl
      rw [h, List.map_cons, ih, List.map_cons,
        trimChars_cons_of_ws (show isWS ' ' = true by decide),
        trimChars_snoc_of_ws (show isWS ' ' = true by decide)]
      rfl

theorem map_trim_padParts :
    ∀ ls : List (List Char), (padParts ls).map trimChars = ls.map trimChars := by
  intro ls
  cases ls with
  | nil => rfl
  | cons p ps =>
    cases ps with
    | nil => rfl
    | cons q qs =>
      have h : padParts (p :: q :: qs) = (p ++ [' ']) :: padMid (q :: qs) := rfl
      rw [h, List.map_cons, map_trim_padMid, List.map_cons,
        trimChars_snoc_of_ws (show isWS ' ' = true by decide)]
      rfl

theorem padMid_eq_modifyHead_padParts (p : List Char) (ps : List (List Char)) :
    padMid (p :: ps) = (padParts (p :: ps)).modifyHead (fun x => ' ' :: x) := by
  cases ps with
  | nil => rfl
  | cons q qs => rfl

theorem splitOnChar_prepend_left {c : Char} :
    ∀ pre : List Char, c ∉ pre → ∀ w : List Char,
      splitOnChar c (pre ++ w) = (splitOnChar c w).modifyHead (fun p => pre ++ p) := by
  intro pre
  induction pre with
  | nil =>
    intro _ w
    rcases hsp : splitOnChar c w with _ | ⟨p, ps⟩
    · exact absurd hsp (splitOnChar_ne_nil c w)
    · simp [hsp]
  | cons b pre' ih =>
    intro hb w
    simp only [List.mem_cons, not_or] at hb
    rw [List.cons_append, splitOnChar_cons_ne (fun he => hb.1 he.symm), ih hb.2 w]
    rcases hsp : splitOnChar c w with _ | ⟨p, ps⟩
    · exact absurd hsp (splitOnChar_ne_nil c w)
    · simp

theorem flatPad_append : ∀ x y : List Char, flatPad (x ++ y) = flatPad x ++ flatPad y := by
  intro x y
  induction x with
  | nil => rfl
  | cons d x ih =>
    rw [List.cons_append, flatPad, flatPad, ih, List.append_assoc]

theorem flatPad_eq_self {l : List Char} (h : ∀ a ∈ l, a ≠ ',' ∧ a ≠ '-') :
    flatPad l = l := by
  induction l with
  | nil => rfl
  | cons d l ih =>
    rw [flatPad, padChar, if_neg (h d (by simp)).1, if_neg (h d (by simp)).2,
      ih fun a ha => h a (by simp [ha])]
    rfl

theorem splitOnChar_flatPad {c : Char} (hc : c = ',' ∨ c = '-') :
    ∀ l : List Char, splitOnChar c (flatPad l) = padParts ((splitOnChar c l).map flatPad) := by
  have hpadc : padChar c = [' ', c, ' '] := by
    rcases hc with rfl | rfl <;> rfl
  have hcsp : ¬(' ' = c) := by
    rcases hc with rfl | rfl <;> decide
  have hnotin : ∀ d, ¬(d = c) → c ∉ padChar d := by
    intro d hdc
    rw [padChar]
    by_cases h1 : d = ','
    · rw [if_pos h1]
      rcases hc with rfl | rfl
      · exact absurd h1 hdc
      · decide
    · rw [if_neg h1]
      by_cases h2 : d = '-'
      · rw [if_pos h2]
        rcases hc with rfl | rfl
        · decide
        · exact absurd h2 hdc
      · rw [if_neg h2]
        simp only [List.mem_singleton]
        exact fun he => hdc he.symm
  intro l
  induction l with
  | nil => rfl
  | cons d l ih =>
    by_cases hd : d = c
    · subst hd
      rw [flatPad, hpadc, List.cons_append, List.cons_append, List.cons_append,
        List.nil_append, splitOnChar_cons_ne hcsp, splitOnChar_cons_sep,
        splitOnChar_cons_ne hcsp, ih, splitOnChar_cons_sep, List.map_cons]
      rcases hps : (splitOnChar d l).map flatPad with _ | ⟨p, ps⟩
      · exact absurd (List.map_eq_nil_iff.1 hps) (splitOnChar_ne_nil d l)
      · rw [← padMid_eq_modifyHead_padParts]
        have h1 : padParts (([] : List Char) :: flatPad ([] : List Char) :: ps) = _ := rfl
        show List.modifyHead (fun x => ' ' :: x) ([] :: padMid (p :: ps))
          = padParts ([] :: p :: ps)
        rw [List.modifyHead_cons]
        rfl
    · rw [flatPad, splitOnChar_prepend_left (padChar d) (hnotin d hd) (flatPad l), ih,
        splitOnChar_cons_ne hd]
      rcases hps : splitOnChar c l with _ | ⟨p, ps⟩
      · exact absurd hps (splitOnChar_ne_nil c l)
      · rw [List.modifyHead_cons, List.map_cons, List.map_cons]
        cases hmp : ps.map flatPad with
        | nil =>
          have hps' : ps = [] := List.map_eq_nil_iff.1 hmp
          subst hps'
          have h1 : padParts [flatPad p] = [flatPad p] := rfl
          have h2 : padParts [flatPad (d :: p)] = [flatPad (d :: p)] := rfl
          rw [h1, h2, List.modifyHead_cons, flatPad]
        | cons x xs =>
          have h1 : padParts (flatPad p :: x :: xs) = (flatPad p ++ [' ']) :: padMid (x :: xs) := rfl
          have h2 : padParts (flatPad (d :: p) :: x :: xs)
              = (flatPad (d :: p) ++ [' ']) :: padMid (x :: xs) := rfl
          rw [h1, h2, List.modifyHead_cons, flatPad, List.append_assoc]

theorem jsNumber_trimChars (x : List Char) : jsNumber (trimChars x) = jsNumber x := by
  simp only [jsNumber, trimChars_idem]

theorem processPart_ok_iff_of_split_trim_eq {u v : List Char} {max : ℕ} {pgs : List ℚ}
    (hsp : (splitOnChar '-' u).map trimChars = (splitOnChar '-' v).map trimChars) :
    ∀ res : List ℚ, processPart u max pgs = .ok res ↔ processPart v max pgs = .ok res := by
  have hmem : ('-' ∈ u) ↔ ('-' ∈ v) := by
    have hlen : (splitAux '-' u).2.length + 1 = (splitAux '-' v).2.length + 1 := by
      have := congrArg List.length hsp
      simpa [splitOnChar] using this
    rw [mem_iff_splitAux_snd_ne_nil, mem_iff_splitAux_snd_ne_nil]
    constructor
    · intro h hnil
      rw [hnil] at hlen
      simp only [List.length_nil] at hlen
      exact h (List.length_eq_zero.1 (by omega))
    · intro h hnil
      rw [hnil] at hlen
      simp only [List.length_nil] at hlen
      exact h (List.length_eq_zero.1 (by omega))
  by_cases hd : '-' ∈ u
  · have hd' : '-' ∈ v := hmem.1 hd
    obtain ⟨p0, p1, rest, hspu⟩ := splitOnChar_two_pieces hd
    obtain ⟨q0, q1, rest', hspv⟩ := splitOnChar_two_pieces hd'
    rw [hspu, hspv] at hsp
    simp only [List.map_cons, List.cons.injEq] at hsp
    obtain ⟨h0, h1, _⟩ := hsp
    have hj0 : jsNumber p0 = jsNumber q0 := by
      rw [← jsNumber_trimChars p0, h0, jsNumber_trimChars]
    have hj1 : jsNumber p1 = jsNumber q1 := by
      rw [← jsNumber_trimChars p1, h1, jsNumber_trimChars]
    intro res
    rw [processPart_range_cases hd hspu, processPart_range_cases hd' hspv, hj0, hj1]
    rcases jsNumber q0 with _ | s
    · constructor <;> (intro h; exact Except.noConfusion h)
    · rcases jsNumber q1 with _ | e
      · constructor <;> (intro h; exact Except.noConfusion h)
      · dsimp only
        by_cases hcond : e < s ∨ s < 1 ∨ (max : ℚ) < e
        · rw [if_pos hcond, if_pos hcond]
          constructor <;> (intro h; exact Except.noConfusion h)
        · rw [if_neg hcond, if_neg hcond]
  · have hd' : '-' ∉ v := fun h => hd (hmem.2 h)
    rw [splitOnChar_of_not_mem hd, splitOnChar_of_not_mem hd'] at hsp
    simp only [List.map_cons, List.map_nil, List.cons.injEq, and_true] at hsp
    have hj : jsNumber u = jsNumber v := by
      rw [← jsNumber_trimChars u, hsp, jsNumber_trimChars]
    intro res
    rw [processPart_single_cases hd, processPart_single_cases hd', hj]
    rcases jsNumber v with _ | p
    · constructor <;> (intro h; exact Except.noConfusion h)
    · dsimp only
      by_cases hcond : p < 1 ∨ (max : ℚ) < p
      · rw [if_pos hcond, if_pos hcond]
        constructor <;> (intro h; exact Except.noConfusion h)
      · rw [if_neg hcond, if_neg hcond]

theorem token_split_trim_eq {r : List Char} (hr : ',' ∉ r) :
    (splitOnChar '-' (trimChars (flatPad r))).map trimChars
      = (splitOnChar '-' (trimChars r)).map trimChars := by
  rw [map_trim_splitOnChar_trim (by decide) (flatPad r),
    map_trim_splitOnChar_trim (by decide) r, splitOnChar_flatPad (Or.inr rfl) r,
    map_trim_padParts, List.map_map]
  have hid : ∀ p ∈ splitOnChar '-' r, flatPad p = p := by
    intro p hp
    refine flatPad_eq_self fun a ha => ⟨fun he => ?_, fun he => ?_⟩
    · exact (not_mem_of_mem_splitOnChar_of_not_mem hr hp) (he ▸ ha)
    · exact (not_mem_of_mem_splitOnChar hp) (he ▸ ha)
  refine List.map_congr_left fun p hp => ?_
  show trimChars (flatPad p) = trimChars p
  rw [hid p hp]

theorem runParts_map_ok_iff {max : ℕ} {f g : List Char → List Char} :
    ∀ parts : List (List Char),
      (∀ r ∈ parts, ∀ (pgs res : List ℚ),
        processPart (f r) max pgs = .ok res ↔ processPart (g r) max pgs = .ok res) →
      ∀ (pgs pages : List ℚ),
        runParts max (parts.map f) pgs = .ok pages
          ↔ runParts max (parts.map g) pgs = .ok pages := by
  intro parts
  induction parts with
  | nil => exact fun _ pgs pages => Iff.rfl
  | cons r rs ih =>
    intro h pgs pages
    rw [List.map_cons, List.map_cons]
    rcases hf : processPart (f r) max pgs with m | pgs'
    · rcases hg : processPart (g r) max pgs with m' | pgs''
      · rw [runParts_cons_error hf, runParts_cons_error hg]
        constructor <;> (intro hx; exact Except.noConfusion hx)
      · have := (h r (by simp) pgs pgs'').2 hg
        rw [hf] at this
        exact absurd this (fun hx => Except.noConfusion hx)
    · have hg : processPart (g r) max pgs = .ok pgs' := (h r (by simp) pgs pgs').1 hf
      rw [runParts_cons_ok hf, runParts_cons_ok hg]
      exact ih (fun r' hr' => h r' (by simp [hr'])) pgs' pages

theorem padSpaces_tokens (s : String) :
    (splitOnChar ',' (padSpaces s).data).map trimChars
      = (splitOnChar ',' s.data).map (fun r => trimChars (flatPad r)) := by
  have hdata : (padSpaces s).data = ' ' :: (flatPad s.data ++ [' ']) := rfl
  rw [hdata, splitOnChar_cons_ne (show (' ' : Char) ≠ ',' by decide),
    splitOnChar_snoc_ne (show (' ' : Char) ≠ ',' by decide),
    splitOnChar_flatPad (Or.inl rfl),
    map_trim_modifyHead (fun p => trimChars_cons_of_ws (by decide) p),
    map_trim_modifyLastCL (fun p => trimChars_snoc_of_ws (by decide) p),
    map_trim_padParts, List.map_map]
  rfl

/-- C7: whitespace around comma-separated tokens and around the hyphen of a
range is tolerated : inserting spaces (at both ends of the input, around
every comma and around every hyphen, via `padSpaces`) never changes a
successful result, and `1, 3-5, 8` with `maxPage = 10` yields the indices
`[0, 2, 3, 4, 7]`. -/
theorem claim7_whitespace :
    (∀ (s : String) (max : ℕ) (l : List ℚ),
      parsePageString s max = .ok l ↔ parsePageString (padSpaces s) max = .ok l)
    ∧ parsePageString ("1, 3-5, 8") 10 = .ok [0, 2, 3, 4, 7] := by
  refine ⟨?_, by decide⟩
  intro s max l
  have hiff : ∀ pgs pages : List ℚ,
      runParts max ((splitOnChar ',' s.data).map trimChars) pgs = .ok pages
        ↔ runParts max ((splitOnChar ',' s.data).map (fun r => trimChars (flatPad r))) pgs
            = .ok pages := by
    intro pgs pages
    refine runParts_map_ok_iff (splitOnChar ',' s.data) ?_ pgs pages
    intro r hrmem pgs' res
    have hr : ',' ∉ r := not_mem_of_mem_splitOnChar hrmem
    exact processPart_ok_iff_of_split_trim_eq (token_split_trim_eq hr).symm res
  constructor
  · intro h
    obtain ⟨pages, hrun, hne, rfl⟩ := parsePageString_ok_elim h
    exact parsePageString_eval (padSpaces_tokens s) ((hiff [] pages).1 hrun) hne
  · intro h
    obtain ⟨pages, hrun, hne, rfl⟩ := parsePageString_ok_elim h
    rw [padSpaces_tokens] at hrun
    exact parsePageString_eval rfl ((hiff [] pages).2 hrun) hne

/-- Witness for C7 : the equivalence instantiated at a concrete input. -/
theorem claim7_whitespace_witness :
    parsePageString ("1,2") 3 = .ok [0, 1]
      ↔ parsePageString (padSpaces ("1,2")) 3 = .ok [0, 1] :=
  claim7_whitespace.1 ("1,2") 3 [0, 1]
